import Mathlib

/-!
Verification of the boolean-expression parsing and evaluation engine of
`bool_parser/bool_parser.py`, together with the combinator utility of
`parser/utils/parser.py`.

The pipeline (`_tokenize` → `_build_ast` → `_evaluate_ast`) is embedded
shallowly: Python lists become `List`, exceptions become an `Except Err`
result, and the two sources of unbounded recursion in `_build_ast`
(recursive descent into parenthesis groups, and the per-tier fold loop)
are given explicit fuel; running out of fuel is reported by the dedicated
`Err.outOfFuel` value, which corresponds to no behaviour of the Python
code and is never identified with any of its exceptions.

The modules `bool_parser/expressions/models.py`,
`bool_parser/expressions/exceptions.py`, `bool_parser/parser_config.py`
and `bool_parser/types/expressions.py` are imported by the sources but are
not part of the repository snapshot; every definition that stands in for
them is marked `Modelled from the spec:` in its doc comment.
-/

namespace BoolParser

/-- Modelled from the spec: the semantic return types declared by the
expression catalog (`ReturnTypes` in the missing `models.py`); the spec
names exactly boolean and numeric. -/
inductive ReturnTypes where
| boolean
| numeric
deriving DecidableEq, Repr

/-- Modelled from the spec: a symbol-table value is "a boolean or numeric
value". Numeric values are kept at the granularity of their literal text,
since no claim exercises numeric arithmetic. -/
inductive Value where
| bool (b : Bool)
| num (text : String)
deriving DecidableEq, Repr

/-- Modelled from the spec: the caller-owned read-only mapping from
identifier name to value (`SymbolTableType`). -/
abbrev SymbolTable := List (String × Value)

/-- Modelled from the spec: the closed set of catalog expression variants
needed by the boolean core: conjunction, disjunction, negation.  The
catalog is external configuration; claims exercise only these. -/
inductive OpKind where
| kAnd
| kOr
| kNot
deriving DecidableEq, Repr

/-- Modelled from the spec: AST nodes (`Expression` in the missing
`models.py`).  Literal and identifier tokens are themselves Expression
leaves ("Leaf variants (literal, identifier) have empty `expects` and are
produced directly by the Lexer/Resolver").  An `Identifier` "holds a name
and a reference to the symbol table; it performs the name-to-value lookup
lazily, at evaluation time, never at parse time". -/
inductive Expr where
| boolLit (text : String)
| numLit (text : String)
| ident (name : String) (table : SymbolTable)
| node (kind : OpKind) (targets : List Expr)

mutual

/-- Decidable equality for `Expr` (the `deriving` handler does not treat
the nested `List Expr` field). -/
def exprDecEq : (a b : Expr) → Decidable (a = b)
| .boolLit s, .boolLit t =>
  match decEq s t with
  | isTrue h => isTrue (by rw [h])
  | isFalse h => isFalse (by intro hh; cases hh; exact h rfl)
| .numLit s, .numLit t =>
  match decEq s t with
  | isTrue h => isTrue (by rw [h])
  | isFalse h => isFalse (by intro hh; cases hh; exact h rfl)
| .ident n tb, .ident n2 tb2 =>
  match decEq n n2, decEq tb tb2 with
  | isTrue h1, isTrue h2 => isTrue (by rw [h1, h2])
  | isFalse h1, _ => isFalse (by intro hh; cases hh; exact h1 rfl)
  | _, isFalse h2 => isFalse (by intro hh; cases hh; exact h2 rfl)
| .node k ts, .node k2 ts2 =>
  match decEq k k2, exprListDecEq ts ts2 with
  | isTrue h1, isTrue h2 => isTrue (by rw [h1, h2])
  | isFalse h1, _ => isFalse (by intro hh; cases hh; exact h1 rfl)
  | _, isFalse h2 => isFalse (by intro hh; cases hh; exact h2 rfl)
| .boolLit _, .numLit _ => isFalse nofun
| .boolLit _, .ident _ _ => isFalse nofun
| .boolLit _, .node _ _ => isFalse nofun
| .numLit _, .boolLit _ => isFalse nofun
| .numLit _, .ident _ _ => isFalse nofun
| .numLit _, .node _ _ => isFalse nofun
| .ident _ _, .boolLit _ => isFalse nofun
| .ident _ _, .numLit _ => isFalse nofun
| .ident _ _, .node _ _ => isFalse nofun
| .node _ _, .boolLit _ => isFalse nofun
| .node _ _, .numLit _ => isFalse nofun
| .node _ _, .ident _ _ => isFalse nofun

def exprListDecEq : (as bs : List Expr) → Decidable (as = bs)
| [], [] => isTrue rfl
| [], _ :: _ => isFalse nofun
| _ :: _, [] => isFalse nofun
| a :: as, b :: bs =>
  match exprDecEq a b, exprListDecEq as bs with
  | isTrue h1, isTrue h2 => isTrue (by rw [h1, h2])
  | isFalse h1, _ => isFalse (by intro hh; cases hh; exact h1 rfl)
  | _, isFalse h2 => isFalse (by intro hh; cases hh; exact h2 rfl)

end

instance : DecidableEq Expr := exprDecEq

/-- One element of the working sequence of `_build_ast`
(`ParseItem = Union[Token, Expression]`).  Parenthesis and operator
tokens are never Expressions; literal and identifier tokens are carried
as the Expression leaf they already are in the Python class hierarchy. -/
inductive ParseItem where
| lparen
| rparen
| opTok (sym : String)
| expr (e : Expr)
deriving DecidableEq

/-- The error signals of the engine.  The five declared exception kinds
follow `exceptions.py` (missing from the snapshot, names taken from
the imported names of `bool_parser.py`); `dictKeyError` models a raw Python
`KeyError` escaping from the `TOKEN_TO_CLASS[...]` subscript in
`is_match`; `keyNotFound` models the symbol-table lookup failure at
evaluation time; `evalTypeError` models an operand of the wrong runtime
kind reaching an operation; `outOfFuel` is the fuel marker of this
embedding and corresponds to no Python behaviour. -/
inductive Err where
| invalidCharacter
| missingLeft (msg : String)
| missingRight (msg : String)
| matchError (msg : String)
| invalidExpression (residual : List ParseItem)
| dictKeyError (sym : String)
| keyNotFound (name : String)
| evalTypeError (msg : String)
| outOfFuel
deriving DecidableEq

/-- Modelled from the spec: `TOKEN_TO_CLASS`, the catalog map from an
operator symbol to the expression variant it instantiates. -/
def TOKEN_TO_CLASS (s : String) : Option OpKind :=
if s = "&" then some .kAnd
else if s = "|" then some .kOr
else if s = "!" then some .kNot
else none

/-- One requirement of an `expects` pattern: either a specific operator
symbol, or "next element must have semantic return-type T". -/
inductive MatchKey where
| ret (t : ReturnTypes)
| op (sym : String)
deriving DecidableEq, Repr

/-- Modelled from the spec: the `expects` pattern each catalog variant
declares. -/
def kindExpects : OpKind → List MatchKey
| .kAnd => [.ret .boolean, .op (r"&"), .ret .boolean]
| .kOr => [.ret .boolean, .op (r"|"), .ret .boolean]
| .kNot => [.op (r"!"), .ret .boolean]

/-- Modelled from the spec: the `returns` type each catalog variant
declares; the boolean connectives all yield booleans. -/
def kindReturns : OpKind → ReturnTypes := fun _ => .boolean

/-- Modelled from the spec: `rules.order_of_operations` of the missing
`parser_config.py` — the ordered list of precedence tiers, earlier tiers
binding tighter; negation, then conjunction, then disjunction (the spec
pins only that the AND tier precedes the OR tier). -/
def order_of_operations : List (List OpKind) :=
[[OpKind.kNot], [OpKind.kAnd], [OpKind.kOr]]

/-- Modelled from the spec: the `returns` attribute of an Expression.
Boolean literals and the boolean connectives return booleans, numeric
literals numerics.  An identifier's type cannot depend on the symbol
table (lazy binding: the table is consulted only during evaluation), so
identifiers participate as boolean-typed elements. -/
def returnsOf : Expr → ReturnTypes
| .boolLit _ => .boolean
| .numLit _ => .numeric
| .ident _ _ => .boolean
| .node k _ => kindReturns k

/-! ## Lexer (`_tokenize`) -/

/-- Membership of a single character in `parantheses`, the key set of
`PARANTHESES_TO_CLASS` (modelled from the spec: parentheses are the two
round brackets). -/
def isParenChar (c : Char) : Bool := c = '(' ∨ c = ')'

/-- Membership of a string in the key set of `TOKEN_TO_CLASS`
(`operation_symbols`). -/
def isOpKey (s : String) : Bool := (TOKEN_TO_CLASS s).isSome

/-- Membership of a single character in `operation_symbols`: the Python
test `c in operation_symbols` compares the one-character string `c`
against the full key strings of the catalog. -/
def isOpSymbolChar (c : Char) : Bool := isOpKey (String.mk [c])

/-- `variable_symbols = set(string.ascii_letters + string.digits + "_.")`. -/
def isVariableSymbol (c : Char) : Bool :=
c.isAlpha ∨ c.isDigit ∨ c = '_' ∨ c = '.'

/-- The characters of the two boolean literal texts. -/
def boolLiteralChars : List Char := "TrueFalse".data

/-- `boolean_literal_symbols = set("TrueFalse")`. -/
def isBoolLitSymbol (c : Char) : Bool := c ∈ boolLiteralChars

/-- `numeric_literal_symbols = set(string.digits + ".")`. -/
def isNumericSymbol (c : Char) : Bool := c.isDigit ∨ c = '.'

/-- Membership of a single character in `language`: the union of the
parenthesis keys, the boolean-literal characters, the operator-symbol
keys and the identifier characters.  (The Python `language` set holds the
full operator key strings; a one-character string is a member exactly
when it is itself a key.) -/
def inLanguage (c : Char) : Bool :=
isParenChar c ∨ isBoolLitSymbol c ∨ isOpSymbolChar c ∨ isVariableSymbol c

/-- The `allowed_symbols` union built in the literal/identifier branch of
`_tokenize`. -/
def isAllowedSymbol (c : Char) : Bool :=
isNumericSymbol c ∨ isBoolLitSymbol c ∨ isVariableSymbol c

/-- The maximal-munch loop of `_match_op_symbol`, as a fuelled structural
recursion (the loop runs at most `rem.length - extend` times, so the fuel
passed by `opExtend` is never exhausted). -/
def opExtendGo (rem : List Char) : Nat → Nat → Nat
| 0, extend => extend
| fuel + 1, extend =>
  if extend + 1 ≤ rem.length ∧ isOpKey (String.mk (rem.take (extend + 1))) then
    opExtendGo rem fuel (extend + 1)
  else extend

/-- The extension count computed by `_match_op_symbol`: extend the
candidate while the extended substring remains a registered operator
symbol. -/
def opExtend (rem : List Char) (extend : Nat) : Nat :=
opExtendGo rem (rem.length + 1 - extend) extend

theorem opExtendGo_ge (rem : List Char) (fuel extend : Nat) :
    extend ≤ opExtendGo rem fuel extend := by
  induction fuel generalizing extend with
  | zero => exact le_refl extend
  | succ fuel ih =>
    rw [opExtendGo]
    split
    · exact le_trans (Nat.le_succ extend) (ih (extend + 1))
    · exact le_refl extend

theorem opExtend_pos (c : Char) (rest : List Char) (h : isOpKey (String.mk [c])) :
    1 ≤ opExtend (c :: rest) 0 := by
  show 1 ≤ opExtendGo (c :: rest) ((c :: rest).length + 1 - 0) 0
  have hlen : (c :: rest).length + 1 - 0 = rest.length + 1 + 1 := by simp
  rw [hlen, opExtendGo]
  have hc : 0 + 1 ≤ (c :: rest).length ∧ isOpKey (String.mk ((c :: rest).take (0 + 1))) := by
    refine ⟨by simp, ?_⟩
    simpa using h
  rw [if_pos hc]
  exact opExtendGo_ge _ _ 1

theorem takeWhile_length_le (p : Char → Bool) (l : List Char) :
    (l.takeWhile p).length ≤ l.length := by
  induction l with
  | nil => simp
  | cons c rest ih =>
    simp only [List.takeWhile_cons]
    split
    · simpa using Nat.succ_le_succ ih
    · simp

/-- Modelled from the spec: `BooleanLiteral.allows` — exact boolean
literal text. -/
def booleanLiteralAllows (s : String) : Bool := s = "True" ∨ s = "False"

/-- Modelled from the spec: `NumericLiteral.allows` — digits with at most
one decimal point, and at least one digit. -/
def numericLiteralAllows (s : String) : Bool :=
s.data.all (fun c => c.isDigit ∨ c = '.') ∧
  (s.data.filter (fun c => c = '.')).length ≤ 1 ∧ s.data.any Char.isDigit

theorem allowed_of_inLanguage (c : Char) (h : inLanguage c)
    (hp : ¬ isParenChar c) (ho : ¬ isOpSymbolChar c) : isAllowedSymbol c := by
  simp only [inLanguage, Bool.or_eq_true, decide_eq_true_eq] at h
  simp only [isAllowedSymbol, Bool.or_eq_true, decide_eq_true_eq]
  rcases h with h | h | h | h
  · exact absurd h hp
  · simp [h]
  · exact absurd h ho
  · simp [h]

/-- The scanning loop of `_tokenize`, over the whitespace-stripped
character list.  Each step consumes at least one character, so the fuel
passed by `tokenize` (one more than the character count) is never
exhausted. -/
def tokenizeChars : Nat → List Char → SymbolTable → Except Err (List ParseItem)
| _, [], _ => .ok []
| 0, _ :: _, _ => .error .outOfFuel
| fuel + 1, c :: rest, table =>
  if ¬ inLanguage c then .error .invalidCharacter
  else if isParenChar c then
    match tokenizeChars fuel rest table with
    | .error e => .error e
    | .ok ts => .ok ((if c = '(' then ParseItem.lparen else ParseItem.rparen) :: ts)
  else if isOpSymbolChar c then
    let ext := opExtend (c :: rest) 0
    let sym := String.mk ((c :: rest).take ext)
    match tokenizeChars fuel ((c :: rest).drop ext) table with
    | .error e => .error e
    | .ok ts => .ok (ParseItem.opTok sym :: ts)
  else
    let run := (c :: rest).takeWhile isAllowedSymbol
    let after := (c :: rest).drop run.length
    let bad : Bool := match after with
      | [] => false
      | d :: _ => ¬ inLanguage d
    if bad then .error .invalidCharacter
    else
      let tokenStr := String.mk run
      let lit : ParseItem :=
        if booleanLiteralAllows tokenStr then .expr (.boolLit tokenStr)
        else if numericLiteralAllows tokenStr then .expr (.numLit tokenStr)
        else .expr (.ident tokenStr table)
      match tokenizeChars fuel after table with
      | .error e => .error e
      | .ok ts => .ok (lit :: ts)

/-- The whitespace removal `s.replace(" ", "")` performed first by
`_tokenize`. -/
def stripSpaces (s : String) : String := String.mk (s.data.filter (fun c => c ≠ ' '))

/-- Embeds `_tokenize`: strip whitespace, then scan left to right. -/
def tokenize (s : String) (symbol_table : SymbolTable) : Except Err (List ParseItem) :=
tokenizeChars ((stripSpaces s).data.length + 1) (stripSpaces s).data symbol_table

/-! ## Error message texts -/

/-- Message of the `MissingLeftParanthesis` raise in `_get_subexpressions`. -/
def msgEmptyStack : String := "empty stack during parsing of subexpression"

/-- Message of the `MissingRightParanthesis` raise in `_get_subexpressions`. -/
def msgUnclosed : String := "found unclosed paranthesis at the end of parsing subexpression"

/-- Message of the `MatchError` raise in `is_match`. -/
def msgNoExprType : String := "could not find the expression type (was an operator provided?)"

/-- Modelled from the spec: operand-kind failure texts of the evaluation
semantics (`models.py` is missing; these are reachable only from ASTs no
parse produces). -/
def msgNotOperand : String := "operand of negation is not a boolean"

/-- Modelled from the spec: see `msgNotOperand`. -/
def msgAndOperand : String := "operand of conjunction is not a boolean"

/-- Modelled from the spec: see `msgNotOperand`. -/
def msgOrOperand : String := "operand of disjunction is not a boolean"

/-- Modelled from the spec: see `msgNotOperand`. -/
def msgArity : String := "unexpected operand count"

/-! ## Subexpression resolver (`_get_subexpressions`) -/

/-- The index-stack scan of `_get_subexpressions`: push the index of each
left parenthesis, pop on each right parenthesis, record an (start, end)
pair exactly when a pop returns the stack to empty depth.  `i` is the
loop index; the stack is kept head-first (the Python list's last element,
the one `pop` removes, is the head here). -/
def get_sub_aux (tokens : List ParseItem) : Nat → Nat → List Nat →
    List (Nat × Nat) → Except Err (List (Nat × Nat))
| 0, _, _, _ => .error .outOfFuel
| fuel + 1, i, stack, acc =>
  match tokens[i]? with
  | none =>
    if stack = [] then .ok acc
    else .error (.missingRight (msgUnclosed))
  | some tok =>
    match tok with
    | .lparen => get_sub_aux tokens fuel (i + 1) (i :: stack) acc
    | .rparen =>
      match stack with
      | [] => .error (.missingLeft (msgEmptyStack))
      | s :: st => get_sub_aux tokens fuel (i + 1) st (if st = [] then acc ++ [(s, i)] else acc)
    | .opTok _ => get_sub_aux tokens fuel (i + 1) stack acc
    | .expr _ => get_sub_aux tokens fuel (i + 1) stack acc

/-- Embeds `_get_subexpressions`: the loop index runs past the end of the
token list exactly once, so the fuel is never exhausted. -/
def get_subexpressions (tokens : List ParseItem) : Except Err (List (Nat × Nat)) :=
get_sub_aux tokens (tokens.length + 1) 0 [] []

/-! ## Python list slicing -/

/-- Clamp one bound of a Python slice `l[a:b]` (negative indices count
from the end; out-of-range bounds clamp to the list). -/
def pyIndexClamp (n : Nat) (i : Int) : Nat :=
let j := if i < 0 then i + n else i
if j < 0 then 0 else min j.toNat n

/-- Python list slicing `l[a:b]` (step 1). -/
def pySlice {α : Type} (l : List α) (a b : Int) : List α :=
(l.take (pyIndexClamp l.length b)).drop (pyIndexClamp l.length a)

/-! ## Precedence matcher (`_match` and its helpers) -/

/-- A node of the trie built by `_build_trie`; children are an
association list keyed by `MatchKey`, in insertion order (a Python dict).
The unread `value` attribute of the Python `TrieNode` is dropped. -/
inductive Trie where
| mkT (children : List (MatchKey × Trie)) (isEnd : Bool)

/-- Children lookup (`match_item in cur_node.children` plus the access). -/
def trieChild (k : MatchKey) : List (MatchKey × Trie) → Option Trie
| [] => none
| (k2, t) :: rest => if k2 = k then some t else trieChild k rest

/-- Association update used by `_build_trie`: replace the entry in place
when the key is present, append a fresh entry otherwise (dict program
semantics). -/
def childUpdate (k : MatchKey) (t : Trie) : List (MatchKey × Trie) → List (MatchKey × Trie)
| [] => [(k, t)]
| (k2, t2) :: rest => if k2 = k then (k, t) :: rest else (k2, t2) :: childUpdate k t rest

/-- Inserting one `expects` pattern into the trie, walking/creating one
node per requirement and marking the final node terminal. -/
def trieInsert : List MatchKey → Trie → Trie
| [], .mkT cs _ => .mkT cs true
| k :: ks, .mkT cs e =>
  let child := match trieChild k cs with
    | some c => c
    | none => .mkT [] false
  .mkT (childUpdate k (trieInsert ks child) cs) e

/-- Embeds `_build_trie`: insert every candidate variant's `expects`
pattern.  (Python iterates a `set`; only key membership and terminal
marking are ever observed, so the iteration order is irrelevant. This
embedding fixes the catalog-list order.) -/
def build_trie (to_match : List OpKind) : Trie :=
to_match.foldl (fun r k => trieInsert (kindExpects k) r) (.mkT [] false)

/-- The key an element of the working sequence offers to the trie walk:
an Expression offers its `returns` type, an operator token its symbol;
parenthesis tokens offer nothing a trie key can equal. -/
def itemKey : ParseItem → Option MatchKey
| .expr e => some (.ret (returnsOf e))
| .opTok s => some (.op s)
| _ => none

/-- Outcome of one `is_match` walk that did not raise. -/
inductive MatchOutcome where
| noMatch
| found (targets : List Expr) (k : OpKind)
deriving DecidableEq

theorem trieChild_mem {k : MatchKey} {cs : List (MatchKey × Trie)} {t : Trie}
    (h : trieChild k cs = some t) : (k, t) ∈ cs := by
  induction cs with
  | nil => simp [trieChild] at h
  | cons p rest ih =>
    obtain ⟨k2, t2⟩ := p
    simp only [trieChild] at h
    split at h
    · rename_i heq
      cases h
      cases heq
      exact List.mem_cons_self _ _
    · exact List.mem_cons_of_mem _ (ih h)

theorem trieChild_sizeOf {k : MatchKey} {cs : List (MatchKey × Trie)} {b : Bool} {t : Trie}
    (h : trieChild k cs = some t) : sizeOf t < sizeOf (Trie.mkT cs b) := by
  have hm := trieChild_mem h
  have h1 : sizeOf (k, t) < sizeOf cs := List.sizeOf_lt_of_mem hm
  have h2 : sizeOf t < sizeOf (k, t) := by
    simp only [Prod.mk.sizeOf_spec]
    omega
  have h3 : sizeOf cs < sizeOf (Trie.mkT cs b) := by
    simp only [Trie.mkT.sizeOf_spec]
    omega
  omega

/-- Embeds `is_match`: walk the trie from position `curIdx`, consuming
elements while following the matching child; stop at the first terminal
node.  `targets` accumulates the non-operator elements consumed, in
encounter order; `exprType` holds `TOKEN_TO_CLASS` of the last operator
token consumed.  Exhausting the sequence (`IndexError`) or a missing
child yields `noMatch`; completing a pattern with no operator consumed
raises `MatchError`; an operator symbol absent from `TOKEN_TO_CLASS`
raises the `KeyError` modelled by `Err.dictKeyError`. -/
def is_match (toParse : List ParseItem) : Nat → Nat → Trie → List Expr →
    Option OpKind → Except Err MatchOutcome
| 0, _, _, _, _ => .error .outOfFuel
| fuel + 1, curIdx, .mkT cs isEnd, targets, exprType =>
  if isEnd then
    match exprType with
    | none => .error (.matchError (msgNoExprType))
    | some k => .ok (.found targets k)
  else
    match toParse[curIdx]? with
    | none => .ok .noMatch
    | some item =>
      match itemKey item with
      | none => .ok .noMatch
      | some key =>
        match trieChild key cs with
        | none => .ok .noMatch
        | some child =>
          match item with
          | .opTok s =>
            match TOKEN_TO_CLASS s with
            | none => .error (.dictKeyError s)
            | some k => is_match toParse fuel (curIdx + 1) child targets (some k)
          | .expr e => is_match toParse fuel (curIdx + 1) child (targets ++ [e]) exprType
          | .lparen => .ok .noMatch
          | .rparen => .ok .noMatch

/-- The scan loop of `_match`: try `is_match` at each start position from
the left; on the first success return the span `[i, i + len(expects))`
and the instantiated Expression. Every walk consumes one element per
step and every scan position advances by one, so the fuels passed by
`find_match` are never exhausted. -/
def match_scan (trie : Trie) (toParse : List ParseItem) : Nat → Nat →
    Except Err (Option (Nat × Nat × Expr))
| 0, _ => .error .outOfFuel
| fuel + 1, i =>
  if i < toParse.length then
    match is_match toParse (toParse.length + 1) i trie [] none with
    | .error e => .error e
    | .ok .noMatch => match_scan trie toParse fuel (i + 1)
    | .ok (.found targets k) =>
      .ok (some (i, i + (kindExpects k).length, .node k targets))
  else .ok none

/-- Embeds `_match`: build the tier's trie, then scan start positions
left to right. -/
def find_match (to_match : List OpKind) (toParse : List ParseItem) :
    Except Err (Option (Nat × Nat × Expr)) :=
match_scan (build_trie to_match) toParse (toParse.length + 1) 0

/-- The per-tier `while matched` loop of `_build_ast` step 2: fold the
leftmost match and re-scan until no match is found.  Each fold of the
concrete catalog strictly shortens the sequence, so the fuel passed by
`runTiers` is never exhausted on reachable inputs. -/
def foldTier : Nat → List OpKind → List ParseItem → Except Err (List ParseItem)
| 0, _, _ => .error .outOfFuel
| fuel + 1, tier, tp =>
  match find_match tier tp with
  | .error e => .error e
  | .ok none => .ok tp
  | .ok (some (i, endIdx, ex)) =>
    foldTier fuel tier (tp.take i ++ [.expr ex] ++ tp.drop endIdx)

/-- The `for expressions in rules.order_of_operations` loop of
`_build_ast` step 2. -/
def runTiers : List (List OpKind) → List ParseItem → Except Err (List ParseItem)
| [], tp => .ok tp
| tier :: rest, tp =>
  match foldTier (tp.length + 1) tier tp with
  | .error e => .error e
  | .ok tp2 => runTiers rest tp2

mutual

/-- Embeds `_build_ast`: resolve outermost parenthesis groups (step 1,
via `splice_go`), fold the precedence tiers in configured order (step 2),
then demand that exactly one Expression remains, raising
`InvalidExpression` carrying the residual sequence otherwise.  The fuel
decreases on every (mutually) recursive call; the quadratic fuel passed
by `eval_expression` is never exhausted. -/
def build_ast : Nat → List ParseItem → Except Err Expr
| 0, _ => .error .outOfFuel
| fuel + 1, tokens =>
  match get_subexpressions tokens with
  | .error e => .error e
  | .ok subs =>
    let pairs : List (Int × Int) :=
      ((-2 : Int), (-1 : Int)) ::
        (subs.map (fun p => ((p.1 : Int), (p.2 : Int))) ++
          [((tokens.length : Int), (tokens.length : Int) + 1)])
    match splice_go fuel tokens pairs (-2) [] with
    | .error e => .error e
    | .ok tp =>
      match runTiers order_of_operations tp with
      | .error e => .error e
      | .ok tp2 =>
        match tp2 with
        | [.expr e] => .ok e
        | _ => .error (.invalidExpression tp2)
termination_by structural fuel tokens => fuel

/-- The step-1 splice loop of `_build_ast`: walk the recorded groups (the
two sentinel pairs included), copying the tokens before each group
through unchanged and replacing each group having a non-empty interior by
the Expression obtained by recursively building its interior. -/
def splice_go : Nat → List ParseItem → List (Int × Int) → Int → List ParseItem →
    Except Err (List ParseItem)
| 0, _, _, _, _ => .error .outOfFuel
| _ + 1, _, [], _, acc => .ok acc
| fuel + 1, tokens, (a, b) :: rest, i, acc =>
  let acc2 := acc ++ pySlice tokens i a
  let interior := pySlice tokens (a + 1) b
  if interior.isEmpty then splice_go fuel tokens rest (b + 1) acc2
  else
    match build_ast fuel interior with
    | .error e => .error e
    | .ok e => splice_go fuel tokens rest (b + 1) (acc2 ++ [.expr e])
termination_by structural fuel tokens rest i acc => fuel

end

/-! ## Evaluator -/

/-- Table lookup performed by `Identifier.operation` at evaluation time. -/
def lookupTable (name : String) : SymbolTable → Option Value
| [] => none
| (k, v) :: rest => if k = name then some v else lookupTable name rest

/-- Modelled from the spec: `operation()` of each Expression variant —
"first evaluates its operand sub-expressions/literals/identifiers
(resolving Identifier values via the symbol table lookup exactly at this
point; parsing literal text to its semantic value exactly at this point),
then applies its own semantics".  A missing identifier surfaces here as
`Err.keyNotFound`. -/
def operation : Expr → Except Err Value
| .boolLit text => .ok (.bool (text = "True"))
| .numLit text => .ok (.num text)
| .ident name table =>
  match lookupTable name table with
  | some v => .ok v
  | none => .error (.keyNotFound name)
| .node .kNot [a] =>
  match operation a with
  | .error e => .error e
  | .ok (.bool x) => .ok (.bool (!x))
  | .ok _ => .error (.evalTypeError (msgNotOperand))
| .node .kAnd [a, b] =>
  match operation a with
  | .error e => .error e
  | .ok va =>
    match operation b with
    | .error e => .error e
    | .ok vb =>
      match va, vb with
      | .bool x, .bool y => .ok (.bool (x && y))
      | _, _ => .error (.evalTypeError (msgAndOperand))
| .node .kOr [a, b] =>
  match operation a with
  | .error e => .error e
  | .ok va =>
    match operation b with
    | .error e => .error e
    | .ok vb =>
      match va, vb with
      | .bool x, .bool y => .ok (.bool (x || y))
      | _, _ => .error (.evalTypeError (msgOrOperand))
| .node _ _ => .error (.evalTypeError (msgArity))

/-- Embeds `_evaluate_ast`: return whatever the root Expression's
`operation()` yields — no check that the root's `returns` is boolean. -/
def evaluate_ast (ast : Expr) : Except Err Value := operation ast

/-- Embeds `eval_expression`: tokenize, build the AST, evaluate.  The
quadratic fuel dominates the total number of splice steps and recursive
descents, so it is always sufficient. -/
def eval_expression (input : String) (symbol_table : SymbolTable) : Except Err Value :=
match tokenize input symbol_table with
| .error e => .error e
| .ok tokens =>
  match build_ast ((tokens.length + 2) * (tokens.length + 2)) tokens with
  | .error e => .error e
  | .ok ast => evaluate_ast ast

/-! ## Supporting lemmas -/

theorem pySlice_self {α : Type} (l : List α) (a : Int) : pySlice l a a = [] := by
  unfold pySlice
  exact List.drop_eq_nil_of_le (by simpa using List.length_take_le (pyIndexClamp l.length a) l)

/-! ## Claim C5 -/

/-- C5: the engine performs no boolean-root check.  Whenever tokenize and
`_build_ast` succeed, `eval_expression` returns exactly what the root
Expression's `operation()` yields; on the input `"1"`, which reduces to a
bare numeric literal, the boolean-typed interface returns the non-boolean
value `num "1"`. -/
theorem c5_no_boolean_root_check :
    (∀ (s : String) (t : SymbolTable) (tokens : List ParseItem) (ast : Expr),
        tokenize s t = .ok tokens →
        build_ast ((tokens.length + 2) * (tokens.length + 2)) tokens = .ok ast →
        eval_expression s t = operation ast) ∧
    eval_expression (r"1") [] = .ok (.num (r"1")) ∧
    (∀ b : Bool, Value.num (r"1") ≠ Value.bool b) := by
  refine ⟨?_, rfl, ?_⟩
  · intro s t tokens ast h1 h2
    unfold eval_expression
    rw [h1]
    dsimp only
    rw [h2]
    rfl
  · intro b h
    exact Value.noConfusion h

/-- Witness for C5's hypotheses: on input `"1"` both stages succeed and
the theorem applies. -/
theorem c5_witness :
    tokenize (r"1") [] = .ok [.expr (.numLit (r"1"))] ∧
      eval_expression (r"1") [] = operation (.numLit (r"1")) :=
  ⟨rfl, c5_no_boolean_root_check.1 (r"1") [] [.expr (.numLit (r"1"))] (.numLit (r"1")) rfl rfl⟩

/-! ## Claim C9 -/

/-- C9: a balanced parenthesis pair with empty interior is silently
deleted: the splice loop of `_build_ast` contributes nothing for a
recorded group `(a, a + 1)` — it only copies the tokens before the group
and moves on past it — and `eval_expression` on `"()"` reaches the
end-of-parse check with an empty working sequence, failing with
`InvalidExpression` (carrying that empty sequence) rather than any
parenthesis error. -/
theorem c9_empty_group_contributes_nothing :
    (∀ (fuel : Nat) (tokens : List ParseItem) (a : Int) (rest : List (Int × Int))
        (i : Int) (acc : List ParseItem),
        splice_go (fuel + 1) tokens ((a, a + 1) :: rest) i acc =
          splice_go fuel tokens rest (a + 1 + 1) (acc ++ pySlice tokens i a)) ∧
    ∀ t : SymbolTable, eval_expression (r"()") t = .error (.invalidExpression []) := by
  constructor
  · intro fuel tokens a rest i acc
    show (if (pySlice tokens (a + 1) (a + 1)).isEmpty then
        splice_go fuel tokens rest (a + 1 + 1) (acc ++ pySlice tokens i a)
      else _) = _
    rw [pySlice_self, if_pos (by rfl)]
  · intro t
    rfl

/-! ## Parenthesis counting -/

/-- Whether a working-sequence element is a left parenthesis token. -/
def isLParenItem : ParseItem → Bool
| .lparen => true
| _ => false

/-- Whether a working-sequence element is a right parenthesis token. -/
def isRParenItem : ParseItem → Bool
| .rparen => true
| _ => false

/-- Whether a working-sequence element is a parenthesis token. -/
def isParenItem (x : ParseItem) : Bool := isLParenItem x || isRParenItem x

/-- Number of left parentheses in a sequence. -/
def countL (l : List ParseItem) : Nat := (l.filter isLParenItem).length

/-- Number of right parentheses in a sequence. -/
def countR (l : List ParseItem) : Nat := (l.filter isRParenItem).length

theorem countL_cons (x : ParseItem) (rest : List ParseItem) :
    countL (x :: rest) = (if isLParenItem x then 1 else 0) + countL rest := by
  simp only [countL, List.filter_cons]
  split <;> simp [Nat.add_comm]

theorem countR_cons (x : ParseItem) (rest : List ParseItem) :
    countR (x :: rest) = (if isRParenItem x then 1 else 0) + countR rest := by
  simp only [countR, List.filter_cons]
  split <;> simp [Nat.add_comm]

theorem countL_lp (rest : List ParseItem) : countL (.lparen :: rest) = countL rest + 1 := rfl

theorem countL_rp (rest : List ParseItem) : countL (.rparen :: rest) = countL rest := rfl

theorem countL_op (s : String) (rest : List ParseItem) :
    countL (.opTok s :: rest) = countL rest := rfl

theorem countL_ex (e : Expr) (rest : List ParseItem) :
    countL (.expr e :: rest) = countL rest := rfl

theorem countR_lp (rest : List ParseItem) : countR (.lparen :: rest) = countR rest := rfl

theorem countR_rp (rest : List ParseItem) : countR (.rparen :: rest) = countR rest + 1 := rfl

theorem countR_op (s : String) (rest : List ParseItem) :
    countR (.opTok s :: rest) = countR rest := rfl

theorem countR_ex (e : Expr) (rest : List ParseItem) :
    countR (.expr e :: rest) = countR rest := rfl

theorem seg_cons (tokens : List ParseItem) (i j : Nat) (tok : ParseItem)
    (hti : tokens[i]? = some tok) (hij : i < j) :
    (tokens.take j).drop i = tok :: (tokens.take j).drop (i + 1) := by
  have hin : i < tokens.length := by
    by_contra hge
    push_neg at hge
    rw [List.getElem?_eq_none hge] at hti
    exact Option.noConfusion hti
  have hlen : i < (tokens.take j).length := by
    simp only [List.length_take]
    omega
  rw [List.drop_eq_getElem_cons hlen]
  congr 1
  rw [List.getElem_take]
  rw [List.getElem?_eq_getElem hin] at hti
  exact Option.some.inj hti

theorem get_sub_aux_zero (tokens : List ParseItem) (i : Nat) (st : List Nat)
    (acc : List (Nat × Nat)) : get_sub_aux tokens 0 i st acc = .error .outOfFuel := rfl

theorem get_sub_aux_succ (tokens : List ParseItem) (fuel i : Nat) (st : List Nat)
    (acc : List (Nat × Nat)) :
    get_sub_aux tokens (fuel + 1) i st acc =
      match tokens[i]? with
      | none => if st = [] then .ok acc else .error (.missingRight (msgUnclosed))
      | some tok =>
        match tok with
        | .lparen => get_sub_aux tokens fuel (i + 1) (i :: st) acc
        | .rparen =>
          match st with
          | [] => .error (.missingLeft (msgEmptyStack))
          | s :: st2 => get_sub_aux tokens fuel (i + 1) st2 (if st2 = [] then acc ++ [(s, i)] else acc)
        | .opTok _ => get_sub_aux tokens fuel (i + 1) st acc
        | .expr _ => get_sub_aux tokens fuel (i + 1) st acc := rfl

theorem getElem?_some_lt {l : List ParseItem} {i : Nat} {x : ParseItem}
    (h : l[i]? = some x) : i < l.length := by
  by_contra hge
  push_neg at hge
  rw [List.getElem?_eq_none hge] at h
  exact Option.noConfusion h

theorem seg_self (tokens : List ParseItem) (i : Nat) : (tokens.take i).drop i = [] :=
  List.drop_eq_nil_of_le (by rw [List.length_take]; exact Nat.min_le_left _ _)

/-- Characterization of the `MissingLeftParanthesis` failure of the
subexpression scan, for the suffix starting at index `i` with pending
stack `st`: the scan fails this way exactly when some right parenthesis
at or after `i` sees no pending group — the pending count plus the left
parentheses before it (within the suffix) do not exceed the right
parentheses before it. -/
theorem gsa_missingLeft_iff (tokens : List ParseItem) :
    ∀ (fuel i : Nat) (st : List Nat) (acc : List (Nat × Nat)),
      tokens.length + 1 ≤ fuel + i →
      (get_sub_aux tokens fuel i st acc = .error (.missingLeft msgEmptyStack) ↔
        ∃ j, i ≤ j ∧ j < tokens.length ∧ tokens[j]? = some ParseItem.rparen ∧
          st.length + countL ((tokens.take j).drop i) ≤
            countR ((tokens.take j).drop i)) := by
  intro fuel
  induction fuel with
  | zero =>
    intro i st acc hf
    constructor
    · intro hr
      rw [get_sub_aux_zero] at hr
      exact absurd (Except.error.inj hr) (fun h => Err.noConfusion h)
    · rintro ⟨j, hij, hjn, _⟩
      omega
  | succ fuel ih =>
    intro i st acc hf
    rw [get_sub_aux_succ]
    cases hti : tokens[i]? with
    | none =>
      have hin : tokens.length ≤ i := by
        by_contra hlt
        push_neg at hlt
        rw [List.getElem?_eq_getElem hlt] at hti
        exact Option.noConfusion hti
      constructor
      · intro hr
        dsimp only at hr
        split at hr
        · exact Except.noConfusion hr
        · exact absurd (Except.error.inj hr) (fun h => Err.noConfusion h)
      · rintro ⟨j, hij, hjn, _⟩
        omega
    | some tok =>
      cases tok with
      | lparen =>
        dsimp only
        rw [ih (i + 1) (i :: st) acc (by omega)]
        constructor
        · rintro ⟨j, hij1, hjn, hjr, hcount⟩
          refine ⟨j, by omega, hjn, hjr, ?_⟩
          rw [seg_cons tokens i j _ hti (by omega), countL_cons, countR_cons]
          try simp [isLParenItem, isRParenItem]
          try simp only [List.length_cons] at hcount
          omega
        · rintro ⟨j, hij, hjn, hjr, hcount⟩
          have hij1 : i + 1 ≤ j := by
            rcases Nat.lt_or_ge i j with hlt | hge
            · omega
            · exfalso
              have heq : j = i := by omega
              subst heq
              rw [hti] at hjr
              exact ParseItem.noConfusion (Option.some.inj hjr)
          refine ⟨j, hij1, hjn, hjr, ?_⟩
          rw [seg_cons tokens i j _ hti (by omega), countL_cons, countR_cons] at hcount
          try simp [isLParenItem, isRParenItem] at hcount
          try simp only [List.length_cons]
          omega
      | rparen =>
        dsimp only
        cases st with
        | nil =>
          dsimp only
          constructor
          · intro _
            refine ⟨i, le_refl i, getElem?_some_lt hti, hti, ?_⟩
            rw [seg_self]
            simp [countL, countR]
          · intro _
            rfl
        | cons s st2 =>
          dsimp only
          rw [ih (i + 1) st2 _ (by omega)]
          constructor
          · rintro ⟨j, hij1, hjn, hjr, hcount⟩
            refine ⟨j, by omega, hjn, hjr, ?_⟩
            rw [seg_cons tokens i j _ hti (by omega), countL_cons, countR_cons]
            try simp [isLParenItem, isRParenItem]
            try simp only [List.length_cons] at hcount ⊢
            omega
          · rintro ⟨j, hij, hjn, hjr, hcount⟩
            have hij1 : i + 1 ≤ j := by
              rcases Nat.lt_or_ge i j with hlt | hge
              · omega
              · exfalso
                have heq : j = i := by omega
                subst heq
                rw [seg_self] at hcount
                simp [countL, countR] at hcount
            refine ⟨j, hij1, hjn, hjr, ?_⟩
            rw [seg_cons tokens i j _ hti (by omega), countL_cons, countR_cons] at hcount
            try simp [isLParenItem, isRParenItem] at hcount
            try simp only [List.length_cons] at hcount ⊢
            omega
      | opTok s =>
        dsimp only
        rw [ih (i + 1) st acc (by omega)]
        constructor
        · rintro ⟨j, hij1, hjn, hjr, hcount⟩
          refine ⟨j, by omega, hjn, hjr, ?_⟩
          rw [seg_cons tokens i j _ hti (by omega), countL_cons, countR_cons]
          try simp [isLParenItem, isRParenItem]
          omega
        · rintro ⟨j, hij, hjn, hjr, hcount⟩
          have hij1 : i + 1 ≤ j := by
            rcases Nat.lt_or_ge i j with hlt | hge
            · omega
            · exfalso
              have heq : j = i := by omega
              subst heq
              rw [hti] at hjr
              exact ParseItem.noConfusion (Option.some.inj hjr)
          refine ⟨j, hij1, hjn, hjr, ?_⟩
          rw [seg_cons tokens i j _ hti (by omega), countL_cons, countR_cons] at hcount
          try simp [isLParenItem, isRParenItem] at hcount
          omega
      | expr e =>
        dsimp only
        rw [ih (i + 1) st acc (by omega)]
        constructor
        · rintro ⟨j, hij1, hjn, hjr, hcount⟩
          refine ⟨j, by omega, hjn, hjr, ?_⟩
          rw [seg_cons tokens i j _ hti (by omega), countL_cons, countR_cons]
          try simp [isLParenItem, isRParenItem]
          omega
        · rintro ⟨j, hij, hjn, hjr, hcount⟩
          have hij1 : i + 1 ≤ j := by
            rcases Nat.lt_or_ge i j with hlt | hge
            · omega
            · exfalso
              have heq : j = i := by omega
              subst heq
              rw [hti] at hjr
              exact ParseItem.noConfusion (Option.some.inj hjr)
          refine ⟨j, hij1, hjn, hjr, ?_⟩
          rw [seg_cons tokens i j _ hti (by omega), countL_cons, countR_cons] at hcount
          try simp [isLParenItem, isRParenItem] at hcount
          omega

/-- Characterization of the `MissingRightParanthesis` failure of the
subexpression scan, for the suffix starting at index `i ≤ n` with pending
stack `st`: the scan fails this way exactly when no right parenthesis
underflows (each sees a pending group) and yet pending groups remain at
the end of the scan. -/
theorem gsa_missingRight_iff (tokens : List ParseItem) :
    ∀ (fuel i : Nat) (st : List Nat) (acc : List (Nat × Nat)),
      i ≤ tokens.length →
      tokens.length + 1 ≤ fuel + i →
      (get_sub_aux tokens fuel i st acc = .error (.missingRight msgUnclosed) ↔
        (∀ j, i ≤ j → j < tokens.length → tokens[j]? = some ParseItem.rparen →
          countR ((tokens.take j).drop i) < st.length + countL ((tokens.take j).drop i)) ∧
        countR (tokens.drop i) < st.length + countL (tokens.drop i)) := by
  intro fuel
  induction fuel with
  | zero =>
    intro i st acc hin hf
    omega
  | succ fuel ih =>
    intro i st acc hin hf
    rw [get_sub_aux_succ]
    cases hti : tokens[i]? with
    | none =>
      have hieq : i = tokens.length := by
        rcases Nat.lt_or_ge i tokens.length with hlt | _
        · rw [List.getElem?_eq_getElem hlt] at hti
          exact absurd hti (fun h => Option.noConfusion h)
        · omega
      have hdrop : tokens.drop i = [] := List.drop_eq_nil_of_le (by omega)
      cases st with
      | nil =>
        dsimp only
        constructor
        · intro hr
          rw [if_pos rfl] at hr
          exact Except.noConfusion hr
        · rintro ⟨_, hend⟩
          rw [hdrop] at hend
          simp [countL, countR] at hend
      | cons s st2 =>
        dsimp only
        rw [if_neg (fun h => List.noConfusion h)]
        constructor
        · intro _
          refine ⟨fun j hij hjn _ => by omega, ?_⟩
          rw [hdrop]
          simp [countL, countR]
        · intro _
          rfl
    | some tok =>
      have hilt : i < tokens.length := getElem?_some_lt hti
      have hdropc : tokens.drop i = tok :: tokens.drop (i + 1) := by
        rw [List.drop_eq_getElem_cons hilt]
        rw [List.getElem?_eq_getElem hilt] at hti
        rw [Option.some.inj hti]
      cases tok with
      | lparen =>
        dsimp only
        rw [ih (i + 1) (i :: st) acc (by omega) (by omega)]
        constructor
        · rintro ⟨hall, hend⟩
          constructor
          · intro j hij hjn hjr
            have hij1 : i + 1 ≤ j := by
              rcases Nat.lt_or_ge i j with hlt | hge
              · omega
              · exfalso
                have heq : j = i := by omega
                subst heq
                rw [hti] at hjr
                exact ParseItem.noConfusion (Option.some.inj hjr)
            have hc := hall j hij1 hjn hjr
            rw [seg_cons tokens i j _ hti (by omega), countL_lp, countR_lp]
            simp only [List.length_cons] at hc
            omega
          · rw [hdropc, countL_lp, countR_lp]
            simp only [List.length_cons] at hend
            omega
        · rintro ⟨hall, hend⟩
          constructor
          · intro j hij1 hjn hjr
            have hc := hall j (by omega) hjn hjr
            rw [seg_cons tokens i j _ hti (by omega), countL_lp, countR_lp] at hc
            simp only [List.length_cons]
            omega
          · rw [hdropc, countL_lp, countR_lp] at hend
            simp only [List.length_cons]
            omega
      | rparen =>
        dsimp only
        cases st with
        | nil =>
          constructor
          · intro hr
            exact absurd (Except.error.inj hr) (fun h => Err.noConfusion h)
          · rintro ⟨hall, _⟩
            exfalso
            have hc := hall i (le_refl i) hilt hti
            rw [seg_self] at hc
            simp [countL, countR] at hc
        | cons s st2 =>
          dsimp only
          rw [ih (i + 1) st2 _ (by omega) (by omega)]
          constructor
          · rintro ⟨hall, hend⟩
            constructor
            · intro j hij hjn hjr
              rcases Nat.lt_or_ge i j with hlt | hge
              · have hc := hall j (by omega) hjn hjr
                rw [seg_cons tokens i j _ hti (by omega), countL_rp, countR_rp]
                simp only [List.length_cons] at hc ⊢
                omega
              · have heq : j = i := by omega
                subst heq
                rw [seg_self]
                simp only [countL, countR, List.filter_nil, List.length_nil, List.length_cons]
                omega
            · rw [hdropc, countL_rp, countR_rp]
              simp only [List.length_cons]
              omega
          · rintro ⟨hall, hend⟩
            constructor
            · intro j hij1 hjn hjr
              have hc := hall j (by omega) hjn hjr
              rw [seg_cons tokens i j _ hti (by omega), countL_rp, countR_rp] at hc
              simp only [List.length_cons] at hc ⊢
              omega
            · rw [hdropc, countL_rp, countR_rp] at hend
              simp only [List.length_cons] at hend ⊢
              omega
      | opTok s =>
        dsimp only
        rw [ih (i + 1) st acc (by omega) (by omega)]
        constructor
        · rintro ⟨hall, hend⟩
          constructor
          · intro j hij hjn hjr
            have hij1 : i + 1 ≤ j := by
              rcases Nat.lt_or_ge i j with hlt | hge
              · omega
              · exfalso
                have heq : j = i := by omega
                subst heq
                rw [hti] at hjr
                exact ParseItem.noConfusion (Option.some.inj hjr)
            have hc := hall j hij1 hjn hjr
            rw [seg_cons tokens i j _ hti (by omega), countL_op, countR_op]
            omega
          · rw [hdropc, countL_op, countR_op]
            omega
        · rintro ⟨hall, hend⟩
          constructor
          · intro j hij1 hjn hjr
            have hc := hall j (by omega) hjn hjr
            rw [seg_cons tokens i j _ hti (by omega), countL_op, countR_op] at hc
            omega
          · rw [hdropc, countL_op, countR_op] at hend
            omega
      | expr e =>
        dsimp only
        rw [ih (i + 1) st acc (by omega) (by omega)]
        constructor
        · rintro ⟨hall, hend⟩
          constructor
          · intro j hij hjn hjr
            have hij1 : i + 1 ≤ j := by
              rcases Nat.lt_or_ge i j with hlt | hge
              · omega
              · exfalso
                have heq : j = i := by omega
                subst heq
                rw [hti] at hjr
                exact ParseItem.noConfusion (Option.some.inj hjr)
            have hc := hall j hij1 hjn hjr
            rw [seg_cons tokens i j _ hti (by omega), countL_ex, countR_ex]
            omega
          · rw [hdropc, countL_ex, countR_ex]
            omega
        · rintro ⟨hall, hend⟩
          constructor
          · intro j hij1 hjn hjr
            have hc := hall j (by omega) hjn hjr
            rw [seg_cons tokens i j _ hti (by omega), countL_ex, countR_ex] at hc
            omega
          · rw [hdropc, countL_ex, countR_ex] at hend
            omega

/-! ## Lexer lemmas for claim C6 -/

theorem drop_takeWhile_length (p : Char → Bool) (l : List Char) :
    l.drop (l.takeWhile p).length = l.dropWhile p := by
  induction l with
  | nil => simp
  | cons c rest ih =>
    simp only [List.takeWhile_cons, List.dropWhile_cons]
    split
    · simpa using ih
    · simp

theorem isOpKey_cases (s : String) (h : isOpKey s = true) :
    s = r"&" ∨ s = r"|" ∨ s = r"!" := by
  unfold isOpKey TOKEN_TO_CLASS at h
  split at h
  · left; assumption
  · split at h
    · right; left; assumption
    · split at h
      · right; right; assumption
      · simp at h

theorem opExtendGo_succ (rem : List Char) (fuel extend : Nat) :
    opExtendGo rem (fuel + 1) extend =
      if extend + 1 ≤ rem.length ∧ isOpKey (String.mk (rem.take (extend + 1))) then
        opExtendGo rem fuel (extend + 1)
      else extend := rfl

/-- Because every registered operator key is a single character, the
maximal-munch extension at an operator character is exactly one. -/
theorem opExtend_eq_one (c : Char) (rest : List Char) (h : isOpKey (String.mk [c]) = true) :
    opExtend (c :: rest) 0 = 1 := by
  show opExtendGo (c :: rest) ((c :: rest).length + 1 - 0) 0 = 1
  have hlen : (c :: rest).length + 1 - 0 = rest.length + 1 + 1 := by simp
  rw [hlen, opExtendGo_succ]
  rw [if_pos ⟨by simp, by simpa using h⟩]
  cases rest with
  | nil =>
    rw [opExtendGo_succ]
    rw [if_neg ?hc]
    case hc =>
      rintro ⟨h2, _⟩
      simp at h2
  | cons d rest2 =>
    rw [opExtendGo_succ]
    rw [if_neg ?hc2]
    case hc2 =>
      rintro ⟨_, hk⟩
      have htake : (c :: d :: rest2).take (1 + 1) = [c, d] := rfl
      rw [htake] at hk
      rcases isOpKey_cases _ hk with he | he | he <;>
      · have hdata := congrArg String.data he
        simp at hdata

theorem inLanguage_of_allowed (c : Char) (h : isAllowedSymbol c = true) :
    inLanguage c = true := by
  simp only [isAllowedSymbol, Bool.or_eq_true, decide_eq_true_eq] at h
  simp only [inLanguage, Bool.or_eq_true, decide_eq_true_eq]
  rcases h with h | h | h
  · simp only [isNumericSymbol, Bool.or_eq_true, decide_eq_true_eq] at h
    right; right; right
    simp only [isVariableSymbol, Bool.or_eq_true, decide_eq_true_eq]
    rcases h with h | h
    · right; left; exact h
    · right; right; right; exact h
  · right; left
    simpa using h
  · right; right; right
    simpa using h

/-- Unfolding of one scanner step (kept in the exact shape of the
definition body, with the local bindings inlined). -/
theorem tokenizeChars_succ_cons (fuel : Nat) (c : Char) (rest : List Char)
    (table : SymbolTable) :
    tokenizeChars (fuel + 1) (c :: rest) table =
      (if ¬ inLanguage c then .error .invalidCharacter
      else if isParenChar c then
        match tokenizeChars fuel rest table with
        | .error e => .error e
        | .ok ts => .ok ((if c = '(' then ParseItem.lparen else ParseItem.rparen) :: ts)
      else if isOpSymbolChar c then
        match tokenizeChars fuel ((c :: rest).drop (opExtend (c :: rest) 0)) table with
        | .error e => .error e
        | .ok ts =>
          .ok (ParseItem.opTok (String.mk ((c :: rest).take (opExtend (c :: rest) 0))) :: ts)
      else
        if (match (c :: rest).drop ((c :: rest).takeWhile isAllowedSymbol).length with
            | [] => (false : Bool)
            | d :: _ => ¬ inLanguage d) then .error .invalidCharacter
        else
          match tokenizeChars fuel
              ((c :: rest).drop ((c :: rest).takeWhile isAllowedSymbol).length) table with
          | .error e => .error e
          | .ok ts =>
            .ok ((if booleanLiteralAllows (String.mk ((c :: rest).takeWhile isAllowedSymbol)) then
                .expr (.boolLit (String.mk ((c :: rest).takeWhile isAllowedSymbol)))
              else if numericLiteralAllows (String.mk ((c :: rest).takeWhile isAllowedSymbol)) then
                .expr (.numLit (String.mk ((c :: rest).takeWhile isAllowedSymbol)))
              else
                .expr (.ident (String.mk ((c :: rest).takeWhile isAllowedSymbol)) table)) :: ts)) :=
  rfl

/-- When every remaining character is in the recognized alphabet the
scanner succeeds. -/
theorem tokenizeChars_all_ok (table : SymbolTable) :
    ∀ (fuel : Nat) (rem : List Char), rem.length < fuel →
      (∀ c ∈ rem, inLanguage c = true) →
      ∃ ts, tokenizeChars fuel rem table = .ok ts := by
  intro fuel
  induction fuel with
  | zero =>
    intro rem h
    omega
  | succ fuel ih =>
    intro rem hlen hall
    cases rem with
    | nil => exact ⟨[], rfl⟩
    | cons c rest =>
      rw [tokenizeChars_succ_cons]
      have hc : inLanguage c = true := hall c (List.mem_cons_self c rest)
      rw [if_neg (by simp [hc])]
      by_cases hp : isParenChar c = true
      · rw [if_pos hp]
        obtain ⟨ts, hts⟩ := ih rest (by simp only [List.length_cons] at hlen; omega)
          (fun d hd => hall d (List.mem_cons_of_mem c hd))
        rw [hts]
        exact ⟨_, rfl⟩
      · rw [if_neg hp]
        by_cases ho : isOpSymbolChar c = true
        · rw [if_pos ho]
          have hop : 1 ≤ opExtend (c :: rest) 0 :=
            opExtend_pos c rest (by simpa [isOpSymbolChar] using ho)
          obtain ⟨ts, hts⟩ := ih ((c :: rest).drop (opExtend (c :: rest) 0))
            (by simp only [List.length_drop, List.length_cons] at *; omega)
            (fun d hd => hall d (List.mem_of_mem_drop hd))
          rw [hts]
          exact ⟨_, rfl⟩
        · rw [if_neg ho]
          have hallow : isAllowedSymbol c = true :=
            allowed_of_inLanguage c hc (by simpa using hp) (by simpa using ho)
          have hrunlen : 1 ≤ ((c :: rest).takeWhile isAllowedSymbol).length := by
            rw [List.takeWhile_cons, if_pos hallow]
            simp
          have hbadfalse : (match
              (c :: rest).drop ((c :: rest).takeWhile isAllowedSymbol).length with
              | [] => (false : Bool)
              | d :: _ => ¬ inLanguage d) = false := by
            cases hafter : (c :: rest).drop ((c :: rest).takeWhile isAllowedSymbol).length with
            | nil => rfl
            | cons d rest2 =>
              have hd : d ∈ (c :: rest) := List.mem_of_mem_drop
                (by rw [hafter]; exact List.mem_cons_self d rest2)
              simp [hall d hd]
          rw [hbadfalse]
          rw [if_neg (by simp)]
          obtain ⟨ts, hts⟩ := ih
            ((c :: rest).drop ((c :: rest).takeWhile isAllowedSymbol).length)
            (by
              simp only [List.length_drop, List.length_cons] at *
              omega)
            (fun d hd => hall d (List.mem_of_mem_drop hd))
          rw [hts]
          exact ⟨_, rfl⟩

/-- When some remaining character is outside the recognized alphabet the
scanner fails with `InvalidCharacter`. -/
theorem tokenizeChars_bad_err (table : SymbolTable) :
    ∀ (fuel : Nat) (rem : List Char), rem.length < fuel →
      (∃ c ∈ rem, inLanguage c = false) →
      tokenizeChars fuel rem table = .error .invalidCharacter := by
  intro fuel
  induction fuel with
  | zero =>
    intro rem h
    omega
  | succ fuel ih =>
    intro rem hlen hbad
    obtain ⟨b, hbmem, hblang⟩ := hbad
    cases rem with
    | nil => exact absurd hbmem (List.not_mem_nil b)
    | cons c rest =>
      rw [tokenizeChars_succ_cons]
      by_cases hc : inLanguage c = true
      · rw [if_neg (by simp [hc])]
        have hbc : b ≠ c := fun he => by rw [he, hc] at hblang; exact Bool.noConfusion hblang
        have hbrest : b ∈ rest := by
          rcases List.mem_cons.mp hbmem with he | hm
          · exact absurd he hbc
          · exact hm
        by_cases hp : isParenChar c = true
        · rw [if_pos hp]
          rw [ih rest (by simp only [List.length_cons] at hlen; omega) ⟨b, hbrest, hblang⟩]
        · rw [if_neg hp]
          by_cases ho : isOpSymbolChar c = true
          · rw [if_pos ho]
            have hone : opExtend (c :: rest) 0 = 1 :=
              opExtend_eq_one c rest (by simpa [isOpSymbolChar] using ho)
            rw [hone]
            have hdrop1 : (c :: rest).drop 1 = rest := rfl
            rw [hdrop1]
            rw [ih rest (by simp only [List.length_cons] at hlen; omega) ⟨b, hbrest, hblang⟩]
          · rw [if_neg ho]
            have hbafter : b ∈ (c :: rest).drop ((c :: rest).takeWhile isAllowedSymbol).length := by
              rw [drop_takeWhile_length]
              rcases (List.mem_append.mp
                (by rw [List.takeWhile_append_dropWhile (p := isAllowedSymbol)]; exact hbmem :
                  b ∈ (c :: rest).takeWhile isAllowedSymbol ++
                    (c :: rest).dropWhile isAllowedSymbol)) with hin | hin
              · exfalso
                have := inLanguage_of_allowed b (List.mem_takeWhile_imp hin)
                rw [this] at hblang
                exact Bool.noConfusion hblang
              · exact hin
            cases hafter : (c :: rest).drop ((c :: rest).takeWhile isAllowedSymbol).length with
            | nil =>
              rw [hafter] at hbafter
              exact absurd hbafter (List.not_mem_nil b)
            | cons d rest2 =>
              by_cases hd : inLanguage d = true
              · have hbd : b ≠ d := fun he => by rw [he, hd] at hblang; exact Bool.noConfusion hblang
                have hbad2 : (match (d :: rest2 : List Char) with
                    | [] => (false : Bool)
                    | d :: _ => ¬ inLanguage d) = false := by simp [hd]
                rw [hbad2, if_neg (by simp)]
                have hrem2 : (d :: rest2).length < fuel := by
                  have hallow : isAllowedSymbol c = true :=
                    allowed_of_inLanguage c hc (by simpa using hp) (by simpa using ho)
                  have hrunlen : 1 ≤ ((c :: rest).takeWhile isAllowedSymbol).length := by
                    rw [List.takeWhile_cons, if_pos hallow]
                    simp
                  have hld := congrArg List.length hafter
                  simp only [List.length_drop, List.length_cons] at hld hlen ⊢
                  omega
                have hbmem2 : b ∈ (d :: rest2 : List Char) := by
                  rw [hafter] at hbafter
                  exact hbafter
                rw [ih (d :: rest2) hrem2 ⟨b, hbmem2, hblang⟩]
              · have hbad2 : (match (d :: rest2 : List Char) with
                    | [] => (false : Bool)
                    | d :: _ => ¬ inLanguage d) = true := by simp [hd]
                rw [hbad2, if_pos rfl]
      · rw [if_pos hc]

/-! ## Trie walk characterization for claim C7 -/

/-- Outcome of one trie walk, phrased by the consumed span: the walk
either dies before completing a pattern (`fail`), runs out of embedding
fuel (`fuelOut`), hits an operator symbol missing from the catalog
(`keyErr`), or completes a pattern having consumed `span`. -/
inductive WalkResult where
| fail
| fuelOut
| keyErr (sym : String)
| complete (span : List ParseItem)
deriving DecidableEq

/-- The reference walk: same descent as `is_match`, but recording the
elements consumed along the walked path instead of carrying the
`targets`/`exprType` accumulators. -/
def walkSpec (toParse : List ParseItem) : Nat → Nat → Trie → WalkResult
| 0, _, _ => .fuelOut
| fuel + 1, curIdx, .mkT cs isEnd =>
  if isEnd then .complete []
  else
    match toParse[curIdx]? with
    | none => .fail
    | some item =>
      match itemKey item with
      | none => .fail
      | some key =>
        match trieChild key cs with
        | none => .fail
        | some child =>
          match item with
          | .opTok s =>
            match TOKEN_TO_CLASS s with
            | none => .keyErr s
            | some _ =>
              match walkSpec toParse fuel (curIdx + 1) child with
              | .complete span => .complete (item :: span)
              | r => r
          | .expr _ =>
            match walkSpec toParse fuel (curIdx + 1) child with
            | .complete span => .complete (item :: span)
            | r => r
          | .lparen => .fail
          | .rparen => .fail

/-- The catalog variant selected by the last operator token of the span
(each consumed operator overwrites `expr_type` in `is_match`), starting
from `et`. -/
def lastCatalogOp (span : List ParseItem) (et : Option OpKind) : Option OpKind :=
span.foldl (fun acc it =>
  match it with
  | .opTok s => TOKEN_TO_CLASS s
  | _ => acc) et

/-- The non-operator elements of the span, in encounter order (these are
the Expressions `is_match` collects as operands). -/
def exprTargets (span : List ParseItem) : List Expr :=
span.filterMap (fun it =>
  match it with
  | .expr e => some e
  | _ => none)

/-- Whether an element is an operator token. -/
def isOpTokItem : ParseItem → Bool
| .opTok _ => true
| _ => false

theorem walkSpec_succ (toParse : List ParseItem) (fuel curIdx : Nat)
    (cs : List (MatchKey × Trie)) (isEnd : Bool) :
    walkSpec toParse (fuel + 1) curIdx (.mkT cs isEnd) =
      (if isEnd then .complete []
      else
        match toParse[curIdx]? with
        | none => .fail
        | some item =>
          match itemKey item with
          | none => .fail
          | some key =>
            match trieChild key cs with
            | none => .fail
            | some child =>
              match item with
              | .opTok s =>
                match TOKEN_TO_CLASS s with
                | none => .keyErr s
                | some _ =>
                  match walkSpec toParse fuel (curIdx + 1) child with
                  | .complete span => .complete (item :: span)
                  | r => r
              | .expr _ =>
                match walkSpec toParse fuel (curIdx + 1) child with
                | .complete span => .complete (item :: span)
                | r => r
              | .lparen => .fail
              | .rparen => .fail) := rfl

theorem is_match_succ (toParse : List ParseItem) (fuel curIdx : Nat)
    (cs : List (MatchKey × Trie)) (isEnd : Bool) (targets : List Expr)
    (exprType : Option OpKind) :
    is_match toParse (fuel + 1) curIdx (.mkT cs isEnd) targets exprType =
      (if isEnd then
        match exprType with
        | none => .error (.matchError (msgNoExprType))
        | some k => .ok (.found targets k)
      else
        match toParse[curIdx]? with
        | none => .ok .noMatch
        | some item =>
          match itemKey item with
          | none => .ok .noMatch
          | some key =>
            match trieChild key cs with
            | none => .ok .noMatch
            | some child =>
              match item with
              | .opTok s =>
                match TOKEN_TO_CLASS s with
                | none => .error (.dictKeyError s)
                | some k => is_match toParse fuel (curIdx + 1) child targets (some k)
              | .expr e => is_match toParse fuel (curIdx + 1) child (targets ++ [e]) exprType
              | .lparen => .ok .noMatch
              | .rparen => .ok .noMatch) := rfl

theorem lastCatalogOp_cons_op (s : String) (span : List ParseItem) (et : Option OpKind) :
    lastCatalogOp (.opTok s :: span) et = lastCatalogOp span (TOKEN_TO_CLASS s) := rfl

theorem lastCatalogOp_cons_expr (e : Expr) (span : List ParseItem) (et : Option OpKind) :
    lastCatalogOp (.expr e :: span) et = lastCatalogOp span et := rfl

theorem exprTargets_cons_op (s : String) (span : List ParseItem) :
    exprTargets (.opTok s :: span) = exprTargets span := rfl

theorem exprTargets_cons_expr (e : Expr) (span : List ParseItem) :
    exprTargets (.expr e :: span) = e :: exprTargets span := rfl

/-- The full characterization of `is_match` by the reference walk. -/
theorem is_match_eq_walk (toParse : List ParseItem) :
    ∀ (fuel curIdx : Nat) (node : Trie) (targets : List Expr) (et : Option OpKind),
      is_match toParse fuel curIdx node targets et =
        (match walkSpec toParse fuel curIdx node with
        | .fuelOut => .error .outOfFuel
        | .fail => .ok .noMatch
        | .keyErr s => .error (.dictKeyError s)
        | .complete span =>
          match lastCatalogOp span et with
          | none => .error (.matchError (msgNoExprType))
          | some k => .ok (.found (targets ++ exprTargets span) k)) := by
  intro fuel
  induction fuel with
  | zero =>
    intro curIdx node targets et
    rfl
  | succ fuel ih =>
    intro curIdx node targets et
    obtain ⟨cs, isEnd⟩ := node
    rw [is_match_succ, walkSpec_succ]
    by_cases he : isEnd = true
    · subst he
      rw [if_pos rfl, if_pos rfl]
      cases et with
      | none => rfl
      | some k =>
        show Except.ok (MatchOutcome.found targets k) =
          Except.ok (.found (targets ++ exprTargets []) k)
        rw [show exprTargets [] = [] from rfl, List.append_nil]
    · have he2 : isEnd = false := by
        cases isEnd
        · rfl
        · exact absurd rfl he
      subst he2
      rw [if_neg (by simp), if_neg (by simp)]
      cases hit : toParse[curIdx]? with
      | none => rfl
      | some item =>
        dsimp only
        cases hik : itemKey item with
        | none => rfl
        | some key =>
          dsimp only
          cases hic : trieChild key cs with
          | none => rfl
          | some child =>
            dsimp only
            cases item with
            | lparen => rfl
            | rparen => rfl
            | opTok s =>
              dsimp only
              cases hts : TOKEN_TO_CLASS s with
              | none => rfl
              | some k =>
                dsimp only
                rw [ih (curIdx + 1) child targets (some k)]
                cases hw : walkSpec toParse fuel (curIdx + 1) child with
                | fuelOut => rfl
                | fail => rfl
                | keyErr s2 => rfl
                | complete span =>
                  show (match lastCatalogOp span (some k) with
                    | none => Except.error (Err.matchError (msgNoExprType))
                    | some k2 => Except.ok (MatchOutcome.found (targets ++ exprTargets span) k2)) =
                    (match lastCatalogOp (.opTok s :: span) et with
                    | none => Except.error (Err.matchError (msgNoExprType))
                    | some k2 =>
                      Except.ok (MatchOutcome.found (targets ++ exprTargets (.opTok s :: span)) k2))
                  rw [lastCatalogOp_cons_op, hts, exprTargets_cons_op]
            | expr e =>
              dsimp only
              rw [ih (curIdx + 1) child (targets ++ [e]) et]
              cases hw : walkSpec toParse fuel (curIdx + 1) child with
              | fuelOut => rfl
              | fail => rfl
              | keyErr s2 => rfl
              | complete span =>
                show (match lastCatalogOp span et with
                  | none => Except.error (Err.matchError (msgNoExprType))
                  | some k2 => Except.ok (MatchOutcome.found ((targets ++ [e]) ++ exprTargets span) k2)) =
                  (match lastCatalogOp (.expr e :: span) et with
                  | none => Except.error (Err.matchError (msgNoExprType))
                  | some k2 =>
                    Except.ok (MatchOutcome.found (targets ++ exprTargets (.expr e :: span)) k2))
                rw [lastCatalogOp_cons_expr, exprTargets_cons_expr, List.append_assoc]
                rfl

theorem lastCatalogOp_no_op (span : List ParseItem)
    (h : span.all (fun it => !isOpTokItem it) = true) (et : Option OpKind) :
    lastCatalogOp span et = et := by
  induction span generalizing et with
  | nil => rfl
  | cons it rest ih =>
    simp only [List.all_cons, Bool.and_eq_true] at h
    cases it with
    | lparen => exact ih h.2 et
    | rparen => exact ih h.2 et
    | expr e => exact ih h.2 et
    | opTok s => simp [isOpTokItem] at h

/-! ## Resolver invariants for claim C8 -/

/-- A recorded group is well formed: indices in bounds and ordered, the
ends are the two parentheses, and the group starts at empty depth (it is
outermost). -/
def pairOk (tokens : List ParseItem) (p : Nat × Nat) : Prop :=
p.1 < p.2 ∧ p.2 < tokens.length ∧ tokens[p.1]? = some ParseItem.lparen ∧
  tokens[p.2]? = some ParseItem.rparen ∧
  countL (tokens.take p.1) = countR (tokens.take p.1)

/-- The recorded groups are disjoint and in left-to-right order. -/
def pairsOrdered (pairs : List (Nat × Nat)) : Prop :=
List.Pairwise (fun p q => p.2 < q.1) pairs

/-- Position `j` lies inside one of the recorded groups. -/
def coveredBy (pairs : List (Nat × Nat)) (j : Nat) : Prop :=
∃ p ∈ pairs, p.1 ≤ j ∧ j ≤ p.2

theorem countL_take_succ (tokens : List ParseItem) (i : Nat) (tok : ParseItem)
    (hti : tokens[i]? = some tok) :
    countL (tokens.take (i + 1)) = countL (tokens.take i) + countL [tok] := by
  rw [List.take_succ, hti]
  simp [countL, List.filter_append]

theorem countR_take_succ (tokens : List ParseItem) (i : Nat) (tok : ParseItem)
    (hti : tokens[i]? = some tok) :
    countR (tokens.take (i + 1)) = countR (tokens.take i) + countR [tok] := by
  rw [List.take_succ, hti]
  simp [countR, List.filter_append]

/-- The success invariant of the parenthesis scan: starting from a state
whose stack and accumulator satisfy the scan invariants, a successful
scan returns only well-formed outermost groups, in order, covering every
parenthesis position. -/
theorem gsa_ok_invariant (tokens : List ParseItem) :
    ∀ (fuel i : Nat) (st : List Nat) (acc pairs : List (Nat × Nat)),
      tokens.length + 1 ≤ fuel + i →
      i ≤ tokens.length →
      (∀ s ∈ st, s < i ∧ tokens[s]? = some ParseItem.lparen) →
      countL (tokens.take i) = countR (tokens.take i) + st.length →
      (∀ s0, st.getLast? = some s0 → s0 < i ∧
        countL (tokens.take s0) = countR (tokens.take s0) ∧ ∀ p ∈ acc, p.2 < s0) →
      (∀ p ∈ acc, pairOk tokens p ∧ p.2 < i) →
      pairsOrdered acc →
      (∀ j x, j < i → tokens[j]? = some x → isParenItem x = true →
        coveredBy acc j ∨ ∃ s0, st.getLast? = some s0 ∧ s0 ≤ j) →
      get_sub_aux tokens fuel i st acc = .ok pairs →
      (∀ p ∈ pairs, pairOk tokens p) ∧ pairsOrdered pairs ∧
      (∀ j x, tokens[j]? = some x → isParenItem x = true → coveredBy pairs j) := by
  intro fuel
  induction fuel with
  | zero =>
    intro i st acc pairs hf hin hst hcnt hbot hacc hord hcov hr
    rw [get_sub_aux_zero] at hr
    exact Except.noConfusion hr
  | succ fuel ih =>
    intro i st acc pairs hf hin hst hcnt hbot hacc hord hcov hr
    rw [get_sub_aux_succ] at hr
    cases hti : tokens[i]? with
    | none =>
      rw [hti] at hr
      dsimp only at hr
      have hieq : i = tokens.length := by
        rcases Nat.lt_or_ge i tokens.length with hlt | _
        · rw [List.getElem?_eq_getElem hlt] at hti
          exact absurd hti (fun h => Option.noConfusion h)
        · omega
      cases hste : st with
      | nil =>
        rw [hste] at hr
        rw [if_pos rfl] at hr
        have hpa : pairs = acc := (Except.ok.inj hr).symm
        subst hpa
        refine ⟨fun p hp => (hacc p hp).1, hord, ?_⟩
        intro j x hjx hpx
        have hjlt : j < i := by
          have := getElem?_some_lt hjx
          omega
        rcases hcov j x hjlt hjx hpx with hc | ⟨s0, hs0, _⟩
        · exact hc
        · rw [hste] at hs0
          exact Option.noConfusion hs0
      | cons s st2 =>
        rw [hste] at hr
        rw [if_neg (fun h => List.noConfusion h)] at hr
        exact Except.noConfusion hr
    | some tok =>
      rw [hti] at hr
      dsimp only at hr
      have hilt : i < tokens.length := getElem?_some_lt hti
      cases tok with
      | lparen =>
        refine ih (i + 1) (i :: st) acc pairs (by omega) (by omega) ?_ ?_ ?_ ?_ hord ?_ hr
        · intro s hs
          rcases List.mem_cons.mp hs with he | hm
          · subst he
            exact ⟨by omega, hti⟩
          · have := hst s hm
            exact ⟨by omega, this.2⟩
        · rw [countL_take_succ tokens i _ hti, countR_take_succ tokens i _ hti]
          show countL (tokens.take i) + 1 = countR (tokens.take i) + 0 + (i :: st).length
          simp only [List.length_cons]
          omega
        · intro s0 hs0
          cases hste : st with
          | nil =>
            rw [hste] at hs0
            have : s0 = i := by
              have : ([i] : List Nat).getLast? = some i := rfl
              rw [this] at hs0
              exact (Option.some.inj hs0).symm
            subst this
            refine ⟨by omega, by rw [hste] at hcnt; simpa using hcnt, ?_⟩
            intro p hp
            exact (hacc p hp).2
          | cons s1 st3 =>
            rw [hste] at hs0
            rw [List.getLast?_cons_cons] at hs0
            have hb := hbot s0 (by rw [hste]; exact hs0)
            exact ⟨by omega, hb.2.1, hb.2.2⟩
        · intro p hp
          have := hacc p hp
          exact ⟨this.1, by omega⟩
        · intro j x hj hjx hpx
          rcases Nat.lt_or_ge j i with hlt | hge
          · rcases hcov j x hlt hjx hpx with hc | ⟨s0, hs0, hle⟩
            · exact Or.inl hc
            · right
              cases hste : st with
              | nil =>
                rw [hste] at hs0
                exact Option.noConfusion hs0
              | cons s1 st3 =>
                refine ⟨s0, ?_, hle⟩
                rw [hste] at hs0
                rw [List.getLast?_cons_cons]
                exact hs0
          · have hj2 : j = i := by omega
            subst hj2
            right
            cases hste : st with
            | nil => exact ⟨j, rfl, le_refl j⟩
            | cons s1 st3 =>
              refine ⟨(s1 :: st3).getLast (fun h => List.noConfusion h), ?_, ?_⟩
              · rw [List.getLast?_cons_cons]
                exact List.getLast?_eq_getLast _ _
              · have hgl2 : st.getLast? =
                    some ((s1 :: st3).getLast (fun h => List.noConfusion h)) := by
                  rw [hste]
                  exact List.getLast?_eq_getLast _ _
                exact Nat.le_of_lt (hbot _ hgl2).1
      | rparen =>
        cases hste : st with
        | nil =>
          rw [hste] at hr
          dsimp only at hr
          exact Except.noConfusion hr
        | cons s st2 =>
          rw [hste] at hr
          dsimp only at hr
          cases hst2e : st2 with
          | nil =>
            rw [hst2e] at hr
            rw [if_pos rfl] at hr
            have hbs := hbot s (by rw [hste, hst2e]; rfl)
            have hss := hst s (by rw [hste]; exact List.mem_cons_self _ _)
            refine ih (i + 1) [] (acc ++ [(s, i)]) pairs (by omega) (by omega) ?_ ?_ ?_ ?_ ?_ ?_ hr
            · intro s' hs'
              exact absurd hs' (List.not_mem_nil s')
            · rw [countL_take_succ tokens i _ hti, countR_take_succ tokens i _ hti]
              rw [hste, hst2e] at hcnt
              simp only [List.length_cons, List.length_nil] at hcnt ⊢
              show countL (tokens.take i) + 0 = countR (tokens.take i) + 1 + 0
              omega
            · intro s0 hs0
              exact Option.noConfusion hs0
            · intro p hp
              rcases List.mem_append.mp hp with hpa | hps
              · have := hacc p hpa
                exact ⟨this.1, by omega⟩
              · have hpe : p = (s, i) := by
                  rcases List.mem_singleton.mp hps with h
                  exact h
                subst hpe
                refine ⟨⟨hbs.1, hilt, hss.2, hti, hbs.2.1⟩, by omega⟩
            · show List.Pairwise (fun p q => p.2 < q.1) (acc ++ [(s, i)])
              rw [List.pairwise_append]
              refine ⟨hord, List.pairwise_singleton _ _, ?_⟩
              intro p hp q hq
              have hqe : q = (s, i) := List.mem_singleton.mp hq
              subst hqe
              exact hbs.2.2 p hp
            · intro j x hj hjx hpx
              left
              rcases Nat.lt_or_ge j i with hlt | hge
              · rcases hcov j x hlt hjx hpx with ⟨p, hp, h1, h2⟩ | ⟨s0, hs0, hle⟩
                · exact ⟨p, List.mem_append_left _ hp, h1, h2⟩
                · have hs0s : s0 = s := by
                    rw [hste, hst2e] at hs0
                    exact (Option.some.inj hs0).symm
                  rw [hs0s] at hle
                  exact ⟨(s, i), List.mem_append_right _ (List.mem_singleton_self _),
                    hle, by omega⟩
              · have hje : j = i := by omega
                subst hje
                exact ⟨(s, j), List.mem_append_right _ (List.mem_singleton_self _),
                  Nat.le_of_lt hbs.1, le_refl j⟩
          | cons s2 st3 =>
            rw [hst2e] at hr
            rw [if_neg (fun h => List.noConfusion h)] at hr
            refine ih (i + 1) (s2 :: st3) acc pairs (by omega) (by omega) ?_ ?_ ?_ ?_ hord ?_ hr
            · intro s' hs'
              have hmem : s' ∈ st := by
                rw [hste, hst2e]
                exact List.mem_cons_of_mem s hs'
              have := hst s' hmem
              exact ⟨by omega, this.2⟩
            · rw [countL_take_succ tokens i _ hti, countR_take_succ tokens i _ hti]
              rw [hste, hst2e] at hcnt
              simp only [List.length_cons] at hcnt ⊢
              show countL (tokens.take i) + 0 = countR (tokens.take i) + 1 + (st3.length + 1)
              omega
            · intro s0 hs0
              have hs0b : st.getLast? = some s0 := by
                rw [hste, hst2e, List.getLast?_cons_cons]
                exact hs0
              have hb := hbot s0 hs0b
              exact ⟨by omega, hb.2.1, hb.2.2⟩
            · intro p hp
              have := hacc p hp
              exact ⟨this.1, by omega⟩
            · intro j x hj hjx hpx
              rcases Nat.lt_or_ge j i with hlt | hge
              · rcases hcov j x hlt hjx hpx with hc | ⟨s0, hs0, hle⟩
                · exact Or.inl hc
                · right
                  refine ⟨s0, ?_, hle⟩
                  rw [hste, hst2e, List.getLast?_cons_cons] at hs0
                  exact hs0
              · have hje : j = i := by omega
                subst hje
                right
                have hne : (s2 :: st3 : List Nat) ≠ [] := fun h => List.noConfusion h
                have hgl : (s2 :: st3).getLast? = some ((s2 :: st3).getLast hne) :=
                  List.getLast?_eq_getLast _ hne
                have hs0b : st.getLast? = some ((s2 :: st3).getLast hne) := by
                  rw [hste, hst2e, List.getLast?_cons_cons]
                  exact hgl
                have hb := hbot _ hs0b
                exact ⟨(s2 :: st3).getLast hne, hgl, Nat.le_of_lt hb.1⟩
      | opTok s =>
        refine ih (i + 1) st acc pairs (by omega) (by omega) ?_ ?_ ?_ ?_ hord ?_ hr
        · intro s' hs'
          have := hst s' hs'
          exact ⟨by omega, this.2⟩
        · rw [countL_take_succ tokens i _ hti, countR_take_succ tokens i _ hti]
          show countL (tokens.take i) + 0 = countR (tokens.take i) + 0 + st.length
          omega
        · intro s0 hs0
          have hb := hbot s0 hs0
          exact ⟨by omega, hb.2.1, hb.2.2⟩
        · intro p hp
          have := hacc p hp
          exact ⟨this.1, by omega⟩
        · intro j x hj hjx hpx
          rcases Nat.lt_or_ge j i with hlt | hge
          · exact hcov j x hlt hjx hpx
          · have hje : j = i := by omega
            subst hje
            rw [hti] at hjx
            have hxe : x = ParseItem.opTok s := (Option.some.inj hjx).symm
            subst hxe
            simp [isParenItem, isLParenItem, isRParenItem] at hpx
      | expr e =>
        refine ih (i + 1) st acc pairs (by omega) (by omega) ?_ ?_ ?_ ?_ hord ?_ hr
        · intro s' hs'
          have := hst s' hs'
          exact ⟨by omega, this.2⟩
        · rw [countL_take_succ tokens i _ hti, countR_take_succ tokens i _ hti]
          show countL (tokens.take i) + 0 = countR (tokens.take i) + 0 + st.length
          omega
        · intro s0 hs0
          have hb := hbot s0 hs0
          exact ⟨by omega, hb.2.1, hb.2.2⟩
        · intro p hp
          have := hacc p hp
          exact ⟨this.1, by omega⟩
        · intro j x hj hjx hpx
          rcases Nat.lt_or_ge j i with hlt | hge
          · exact hcov j x hlt hjx hpx
          · have hje : j = i := by omega
            subst hje
            rw [hti] at hjx
            have hxe : x = ParseItem.expr e := (Option.some.inj hjx).symm
            subst hxe
            simp [isParenItem, isLParenItem, isRParenItem] at hpx

/-- Python slicing with nonnegative bounds is plain take/drop. -/
theorem pySlice_natCast {α : Type} (l : List α) (i a : Nat) :
    pySlice l (i : Int) (a : Int) = (l.take a).drop i := by
  unfold pySlice pyIndexClamp
  have hi : ¬ ((i : Int) < 0) := by omega
  have ha : ¬ ((a : Int) < 0) := by omega
  rw [if_neg hi, if_neg ha, if_neg hi, if_neg ha]
  simp only [Int.toNat_ofNat]
  have htake : l.take (min a l.length) = l.take a := by
    rcases Nat.le_total a l.length with h | h
    · rw [Nat.min_eq_left h]
    · rw [Nat.min_eq_right h, List.take_length, List.take_of_length_le h]
  rw [htake]
  rcases Nat.le_total i l.length with h | h
  · rw [Nat.min_eq_left h]
  · rw [Nat.min_eq_right h]
    have h1 : (l.take a).length ≤ l.length := by
      rw [List.length_take]
      exact Nat.min_le_right a l.length
    rw [List.drop_eq_nil_of_le h1, List.drop_eq_nil_of_le (le_trans h1 h)]

/-- The reference form of the step-1 splice: copy the tokens between the
recorded groups through unchanged (plain take/drop segments), splice the
recursively built Expression of each non-empty interior in place, and
append the tokens after the last group. -/
def resolve_ref (tokens : List ParseItem) : Nat → List (Nat × Nat) → Nat →
    Except Err (List ParseItem)
| 0, _, _ => .error .outOfFuel
| _ + 1, [], i => .ok (tokens.drop i)
| fuel + 1, (a, b) :: rest, i =>
  if ((tokens.take b).drop (a + 1)).isEmpty then
    match resolve_ref tokens fuel rest (b + 1) with
    | .error e => .error e
    | .ok tail => .ok ((tokens.take a).drop i ++ tail)
  else
    match build_ast fuel ((tokens.take b).drop (a + 1)) with
    | .error e => .error e
    | .ok e =>
      match resolve_ref tokens fuel rest (b + 1) with
      | .error e2 => .error e2
      | .ok tail => .ok ((tokens.take a).drop i ++ ParseItem.expr e :: tail)

theorem splice_go_succ_nil (fuel : Nat) (tokens : List ParseItem) (i : Int)
    (acc : List ParseItem) : splice_go (fuel + 1) tokens [] i acc = .ok acc := rfl

theorem splice_go_succ_cons (fuel : Nat) (tokens : List ParseItem) (a b : Int)
    (rest : List (Int × Int)) (i : Int) (acc : List ParseItem) :
    splice_go (fuel + 1) tokens ((a, b) :: rest) i acc =
      (if (pySlice tokens (a + 1) b).isEmpty then
        splice_go fuel tokens rest (b + 1) (acc ++ pySlice tokens i a)
      else
        match build_ast fuel (pySlice tokens (a + 1) b) with
        | .error e => .error e
        | .ok e =>
          splice_go fuel tokens rest (b + 1) ((acc ++ pySlice tokens i a) ++ [.expr e])) := rfl

/-- The splice loop with the trailing sentinel equals the reference form,
up to the accumulated prefix. -/
theorem splice_go_eq_ref (tokens : List ParseItem) :
    ∀ (ps : List (Nat × Nat)) (fuel i : Nat) (acc : List ParseItem),
      ps.length + 2 ≤ fuel →
      splice_go fuel tokens
          (ps.map (fun p => ((p.1 : Int), (p.2 : Int))) ++
            [((tokens.length : Int), (tokens.length : Int) + 1)]) (i : Int) acc =
        (resolve_ref tokens fuel ps i).map (fun l => acc ++ l) := by
  intro ps
  induction ps with
  | nil =>
    intro fuel i acc hf
    obtain ⟨f, rfl⟩ : ∃ f, fuel = f + 2 := ⟨fuel - 2, by omega⟩
    simp only [List.map_nil, List.nil_append]
    rw [splice_go_succ_cons]
    have hint : pySlice tokens ((tokens.length : Int) + 1) ((tokens.length : Int) + 1) = [] :=
      pySlice_self tokens _
    have hint2 : (tokens.length : Int) + 1 = ((tokens.length + 1 : Nat) : Int) := by push_cast; rfl
    rw [hint2, pySlice_natCast] at hint ⊢
    rw [hint]
    rw [if_pos (show ([] : List ParseItem).isEmpty = true from rfl)]
    rw [pySlice_natCast]
    rw [List.take_length]
    show splice_go (f + 1) tokens [] _ (acc ++ tokens.drop i) =
      (resolve_ref tokens (f + 2) [] i).map (fun l => acc ++ l)
    rw [splice_go_succ_nil]
    rfl
  | cons p rest ih =>
    intro fuel i acc hf
    obtain ⟨a, b⟩ := p
    obtain ⟨f, rfl⟩ : ∃ f, fuel = f + 1 := ⟨fuel - 1, by omega⟩
    simp only [List.map_cons, List.cons_append]
    rw [splice_go_succ_cons]
    have hca : ((a : Int) + 1) = ((a + 1 : Nat) : Int) := by push_cast; rfl
    have hcb : ((b : Int) + 1) = ((b + 1 : Nat) : Int) := by push_cast; rfl
    rw [hca, pySlice_natCast, pySlice_natCast]
    show (if ((tokens.take b).drop (a + 1)).isEmpty then
        splice_go f tokens _ ((b : Int) + 1) (acc ++ (tokens.take a).drop i)
      else _) = _
    by_cases hemp : ((tokens.take b).drop (a + 1)).isEmpty = true
    · rw [if_pos hemp]
      rw [hcb]
      rw [ih f (b + 1) (acc ++ (tokens.take a).drop i) (by simp only [List.length_cons] at hf; omega)]
      show _ = (resolve_ref tokens (f + 1) ((a, b) :: rest) i).map (fun l => acc ++ l)
      rw [resolve_ref]
      rw [if_pos hemp]
      cases hres : resolve_ref tokens f rest (b + 1) with
      | error e => rfl
      | ok tail =>
        show Except.ok ((acc ++ (tokens.take a).drop i) ++ tail) =
          Except.ok (acc ++ ((tokens.take a).drop i ++ tail))
        rw [List.append_assoc]
    · rw [if_neg hemp]
      show (match build_ast f ((tokens.take b).drop (a + 1)) with
        | .error e => Except.error e
        | .ok e =>
          splice_go f tokens _ ((b : Int) + 1)
            ((acc ++ (tokens.take a).drop i) ++ [.expr e])) =
        (resolve_ref tokens (f + 1) ((a, b) :: rest) i).map (fun l => acc ++ l)
      rw [resolve_ref]
      rw [if_neg hemp]
      cases hb : build_ast f ((tokens.take b).drop (a + 1)) with
      | error e => rfl
      | ok e =>
        dsimp only
        rw [hcb]
        rw [ih f (b + 1) ((acc ++ (tokens.take a).drop i) ++ [ParseItem.expr e])
          (by simp only [List.length_cons] at hf; omega)]
        cases hres : resolve_ref tokens f rest (b + 1) with
        | error e2 => rfl
        | ok tail =>
          show Except.ok (((acc ++ (tokens.take a).drop i) ++ [.expr e]) ++ tail) =
            Except.ok (acc ++ ((tokens.take a).drop i ++ ParseItem.expr e :: tail))
          rw [List.append_assoc, List.append_assoc]
          rfl

theorem mem_drop_ex {l : List ParseItem} {i : Nat} {x : ParseItem} (h : x ∈ l.drop i) :
    ∃ j, i ≤ j ∧ l[j]? = some x := by
  obtain ⟨k, hk⟩ := List.mem_iff_getElem?.mp h
  rw [List.getElem?_drop] at hk
  exact ⟨i + k, by omega, hk⟩

theorem mem_take_drop_ex {l : List ParseItem} {i a : Nat} {x : ParseItem}
    (h : x ∈ (l.take a).drop i) : ∃ j, i ≤ j ∧ j < a ∧ l[j]? = some x := by
  obtain ⟨k, hk⟩ := List.mem_iff_getElem?.mp h
  rw [List.getElem?_drop] at hk
  have hlt : i + k < a := by
    by_contra hge
    push_neg at hge
    rw [List.getElem?_eq_none (by rw [List.length_take]; omega)] at hk
    exact Option.noConfusion hk
  rw [List.getElem?_take_of_lt hlt] at hk
  exact ⟨i + k, by omega, hlt, hk⟩

theorem resolve_ref_succ_cons (tokens : List ParseItem) (f : Nat) (a b : Nat)
    (rest : List (Nat × Nat)) (i : Nat) :
    resolve_ref tokens (f + 1) ((a, b) :: rest) i =
      (if ((tokens.take b).drop (a + 1)).isEmpty then
        match resolve_ref tokens f rest (b + 1) with
        | .error e => .error e
        | .ok tail => .ok ((tokens.take a).drop i ++ tail)
      else
        match build_ast f ((tokens.take b).drop (a + 1)) with
        | .error e => .error e
        | .ok e =>
          match resolve_ref tokens f rest (b + 1) with
          | .error e2 => .error e2
          | .ok tail => .ok ((tokens.take a).drop i ++ ParseItem.expr e :: tail)) := rfl

/-- Given well-formed ordered groups covering every parenthesis position
at or after `i`, the reference splice output contains no parenthesis
token. -/
theorem resolve_ref_no_paren (tokens : List ParseItem) :
    ∀ (ps : List (Nat × Nat)) (fuel i : Nat) (out : List ParseItem),
      (∀ p ∈ ps, pairOk tokens p) →
      List.Pairwise (fun p q => p.2 < q.1) ps →
      (∀ p ∈ ps, i ≤ p.1) →
      (∀ j x, i ≤ j → tokens[j]? = some x → isParenItem x = true → coveredBy ps j) →
      resolve_ref tokens fuel ps i = .ok out →
      ∀ x ∈ out, isParenItem x = false := by
  intro ps
  induction ps with
  | nil =>
    intro fuel i out hok hord hile hcov hr x hx
    cases fuel with
    | zero =>
      rw [show resolve_ref tokens 0 [] i = .error .outOfFuel from rfl] at hr
      exact Except.noConfusion hr
    | succ f =>
      rw [show resolve_ref tokens (f + 1) [] i = .ok (tokens.drop i) from rfl] at hr
      have hout : out = tokens.drop i := (Except.ok.inj hr).symm
      subst hout
      obtain ⟨j, hij, hjx⟩ := mem_drop_ex hx
      cases hpx : isParenItem x
      · rfl
      · exfalso
        obtain ⟨q, hq, _, _⟩ := hcov j x hij hjx hpx
        exact absurd hq (List.not_mem_nil q)
  | cons p rest ih =>
    intro fuel i out hok hord hile hcov hr x hx
    obtain ⟨a, b⟩ := p
    cases fuel with
    | zero =>
      rw [show resolve_ref tokens 0 ((a, b) :: rest) i = .error .outOfFuel from rfl] at hr
      exact Except.noConfusion hr
    | succ f =>
      rw [resolve_ref_succ_cons] at hr
      have hpOk := hok (a, b) (List.mem_cons_self _ _)
      have hrestok : ∀ q ∈ rest, pairOk tokens q :=
        fun q hq => hok q (List.mem_cons_of_mem _ hq)
      have hpw := List.pairwise_cons.mp hord
      have hrestord : List.Pairwise (fun p q => p.2 < q.1) rest := hpw.2
      have hheadrel : ∀ q ∈ rest, b < q.1 := fun q hq => hpw.1 q hq
      have hile2 : ∀ q ∈ rest, b + 1 ≤ q.1 := fun q hq => hheadrel q hq
      have hia : i ≤ a := hile (a, b) (List.mem_cons_self _ _)
      have hab : a < b := hpOk.1
      have hcov2 : ∀ j x, b + 1 ≤ j → tokens[j]? = some x → isParenItem x = true →
          coveredBy rest j := by
        intro j x hj hjx hpx
        obtain ⟨q, hq, h1, h2⟩ := hcov j x (by omega) hjx hpx
        rcases List.mem_cons.mp hq with he | hm
        · exfalso
          rw [he] at h2
          simp only at h2
          omega
        · exact ⟨q, hm, h1, h2⟩
      have hsegOk : ∀ y, y ∈ (tokens.take a).drop i → isParenItem y = false := by
        intro y hy
        obtain ⟨j, hij, hja, hjx⟩ := mem_take_drop_ex hy
        cases hpy : isParenItem y
        · rfl
        · exfalso
          obtain ⟨q, hq, h1, h2⟩ := hcov j y hij hjx hpy
          rcases List.mem_cons.mp hq with he | hm
          · rw [he] at h1
            simp only at h1
            omega
          · have := hheadrel q hm
            omega
      by_cases hemp : ((tokens.take b).drop (a + 1)).isEmpty = true
      · rw [if_pos hemp] at hr
        cases hres : resolve_ref tokens f rest (b + 1) with
        | error e =>
          rw [hres] at hr
          exact Except.noConfusion hr
        | ok tail =>
          rw [hres] at hr
          have hout : out = (tokens.take a).drop i ++ tail := (Except.ok.inj hr).symm
          subst hout
          rcases List.mem_append.mp hx with hseg | htail
          · exact hsegOk x hseg
          · exact ih f (b + 1) tail hrestok hrestord hile2 hcov2 hres x htail
      · rw [if_neg hemp] at hr
        cases hbld : build_ast f ((tokens.take b).drop (a + 1)) with
        | error e =>
          rw [hbld] at hr
          exact Except.noConfusion hr
        | ok e =>
          rw [hbld] at hr
          dsimp only at hr
          cases hres : resolve_ref tokens f rest (b + 1) with
          | error e2 =>
            rw [hres] at hr
            exact Except.noConfusion hr
          | ok tail =>
            rw [hres] at hr
            have hout : out = (tokens.take a).drop i ++ ParseItem.expr e :: tail :=
              (Except.ok.inj hr).symm
            subst hout
            rcases List.mem_append.mp hx with hseg | hrest2
            · exact hsegOk x hseg
            · rcases List.mem_cons.mp hrest2 with he | htail
              · rw [he]
                rfl
              · exact ih f (b + 1) tail hrestok hrestord hile2 hcov2 hres x htail

/-! ## Claim C8 -/

/-- C8: the subexpression resolver records only the outermost complete
parenthesis groups (each recorded pair starts at empty depth, the ends
are the parentheses themselves, and the groups are disjoint and ordered),
every parenthesis position lies inside a recorded group, and the splice
output of `_build_ast` step 1 equals the reference form — tokens outside
every recorded group copied through unchanged in original left-to-right
order, each group with non-empty interior replaced in place by the single
Expression built recursively from its interior — and therefore contains
no parenthesis tokens. -/
theorem c8_resolver_structure (tokens : List ParseItem) (pairs : List (Nat × Nat))
    (h : get_subexpressions tokens = .ok pairs) :
    (∀ p ∈ pairs, pairOk tokens p) ∧
    pairsOrdered pairs ∧
    (∀ j x, tokens[j]? = some x → isParenItem x = true → coveredBy pairs j) ∧
    (∀ fuel : Nat, pairs.length + 3 ≤ fuel →
      splice_go fuel tokens
          (((-2 : Int), (-1 : Int)) ::
            (pairs.map (fun p => ((p.1 : Int), (p.2 : Int))) ++
              [((tokens.length : Int), (tokens.length : Int) + 1)])) (-2) [] =
        resolve_ref tokens (fuel - 1) pairs 0) ∧
    (∀ (fuel : Nat) (out : List ParseItem), resolve_ref tokens fuel pairs 0 = .ok out →
      ∀ x ∈ out, isParenItem x = false) := by
  have hinv := gsa_ok_invariant tokens (tokens.length + 1) 0 [] [] pairs (by omega) (by omega)
    (fun s hs => absurd hs (List.not_mem_nil s))
    (by simp [countL, countR])
    (fun s0 hs0 => Option.noConfusion hs0)
    (fun p hp => absurd hp (List.not_mem_nil p))
    List.Pairwise.nil
    (fun j x hj _ _ => absurd hj (Nat.not_lt_zero j))
    h
  obtain ⟨hOk, hOrd, hCov⟩ := hinv
  refine ⟨hOk, hOrd, hCov, ?_, ?_⟩
  · intro fuel hf
    obtain ⟨f, rfl⟩ : ∃ f, fuel = f + 1 := ⟨fuel - 1, by omega⟩
    rw [splice_go_succ_cons]
    have h1 : ((-2 : Int) + 1) = (-1 : Int) := by norm_num
    rw [h1, pySlice_self]
    rw [if_pos (show ([] : List ParseItem).isEmpty = true from rfl)]
    rw [pySlice_self]
    have h2 : ((-1 : Int) + 1) = ((0 : Nat) : Int) := by norm_num
    rw [h2]
    have h3 : ([] : List ParseItem) ++ [] = [] := rfl
    rw [h3]
    rw [splice_go_eq_ref tokens pairs f 0 [] (by omega)]
    rw [Nat.add_sub_cancel]
    cases hres : resolve_ref tokens f pairs 0 with
    | error e => rfl
    | ok l =>
      show Except.ok ([] ++ l) = Except.ok l
      rw [List.nil_append]
  · intro fuel out hres
    exact resolve_ref_no_paren tokens pairs fuel 0 out hOk hOrd
      (fun p _ => Nat.zero_le _) (fun j x _ hjx hpx => hCov j x hjx hpx) hres

/-- The token sequence of `(A)&B`, used by the C8 witness. -/
def toksW : List ParseItem :=
[.lparen, .expr (.ident (r"A") []), .rparen, .opTok (r"&"), .expr (.ident (r"B") [])]

/-- Witness for C8's hypotheses: on the tokens of `(A)&B` the resolver
records exactly the outermost group `(0, 2)`, the splice equals the
reference form, the output splices the recursively built interior in
place of the group and carries the remaining tokens through unchanged,
and it contains no parenthesis tokens. -/
theorem c8_witness :
    get_subexpressions toksW = .ok [(0, 2)] ∧
    splice_go 10 toksW
        [((-2 : Int), (-1 : Int)), ((0 : Int), (2 : Int)),
          ((5 : Int), (6 : Int))] (-2) [] =
      resolve_ref toksW 9 [(0, 2)] 0 ∧
    resolve_ref toksW 9 [(0, 2)] 0 =
      .ok [ParseItem.expr (.ident (r"A") []), ParseItem.opTok (r"&"),
        ParseItem.expr (.ident (r"B") [])] ∧
    (∀ x ∈ [ParseItem.expr (.ident (r"A") []), ParseItem.opTok (r"&"),
        ParseItem.expr (.ident (r"B") [])], isParenItem x = false) := by
  have h := c8_resolver_structure toksW [(0, 2)] rfl
  refine ⟨rfl, ?_, rfl, ?_⟩
  · have h4 := h.2.2.2.1 10 (by simp)
    exact h4
  · intro x hx
    exact h.2.2.2.2 9 _ rfl x hx

/-! ## Claim C7 -/

/-- C7: outcomes of a tier's trie walk.  `is_match` is fully determined
by the reference walk: a completed pattern along whose path no operator
token was consumed fails with `MatchError`; a completed pattern with an
operator consumed instantiates the catalog variant identified by that
operator symbol (`TOKEN_TO_CLASS` of the last operator consumed) from
the non-operator elements of the walked span in encounter order. -/
theorem c7_trie_walk :
    (∀ (toParse : List ParseItem) (fuel curIdx : Nat) (trie : Trie),
      is_match toParse fuel curIdx trie [] none =
        (match walkSpec toParse fuel curIdx trie with
        | .fuelOut => .error .outOfFuel
        | .fail => .ok .noMatch
        | .keyErr s => .error (.dictKeyError s)
        | .complete span =>
          match lastCatalogOp span none with
          | none => .error (.matchError (msgNoExprType))
          | some k => .ok (.found (exprTargets span) k))) ∧
    (∀ (toParse : List ParseItem) (fuel curIdx : Nat) (trie : Trie) (span : List ParseItem),
      walkSpec toParse fuel curIdx trie = .complete span →
      span.all (fun it => !isOpTokItem it) = true →
      is_match toParse fuel curIdx trie [] none = .error (.matchError (msgNoExprType))) ∧
    (∀ (toParse : List ParseItem) (fuel curIdx : Nat) (trie : Trie) (span : List ParseItem)
        (k : OpKind),
      walkSpec toParse fuel curIdx trie = .complete span →
      lastCatalogOp span none = some k →
      is_match toParse fuel curIdx trie [] none = .ok (.found (exprTargets span) k)) := by
  refine ⟨?_, ?_, ?_⟩
  · intro toParse fuel curIdx trie
    have h := is_match_eq_walk toParse fuel curIdx trie [] none
    simpa using h
  · intro toParse fuel curIdx trie span hw hno
    rw [is_match_eq_walk toParse fuel curIdx trie [] none, hw]
    dsimp only
    rw [lastCatalogOp_no_op span hno]
  · intro toParse fuel curIdx trie span k hw hk
    rw [is_match_eq_walk toParse fuel curIdx trie [] none, hw]
    dsimp only
    rw [hk]
    dsimp only
    rw [List.nil_append]

/-- Witness for C7: on the working sequence of `A&B` the conjunction
tier's walk completes having consumed the `&` operator and instantiates
the conjunction variant from the two identifier operands; a trie whose
root is terminal (an operator-free pattern) makes `is_match` raise
`MatchError`. -/
theorem c7_witness :
    is_match [ParseItem.expr (.ident (r"A") []), ParseItem.opTok (r"&"),
        ParseItem.expr (.ident (r"B") [])] 4 0 (build_trie [OpKind.kAnd]) [] none =
      .ok (.found [.ident (r"A") [], .ident (r"B") []] .kAnd) ∧
    is_match [] 1 0 (Trie.mkT [] true) [] none = .error (.matchError (msgNoExprType)) := by
  constructor
  · exact c7_trie_walk.2.2
      [ParseItem.expr (.ident (r"A") []), ParseItem.opTok (r"&"), ParseItem.expr (.ident (r"B") [])]
      4 0 (build_trie [OpKind.kAnd])
      [ParseItem.expr (.ident (r"A") []), ParseItem.opTok (r"&"), ParseItem.expr (.ident (r"B") [])]
      .kAnd rfl rfl
  · exact c7_trie_walk.2.1 [] 1 0 (Trie.mkT [] true) [] rfl rfl

/-! ## Claim C6 -/

/-- C6: the lexer fails with `InvalidCharacter` exactly when the
(whitespace-stripped) input contains a character outside the recognized
alphabet — parentheses, registered operator symbols, and the
identifier/literal characters (letters, digits, underscore, dot), which
is precisely `inLanguage`; in particular `eval_expression "A#B"` fails
with `InvalidCharacter` for every table. -/
theorem c6_invalid_character :
    (∀ (s : String) (t : SymbolTable),
      tokenize s t = .error .invalidCharacter ↔
        ∃ c ∈ (stripSpaces s).data, inLanguage c = false) ∧
    (∀ t : SymbolTable, eval_expression (r"A#B") t = .error .invalidCharacter) := by
  constructor
  · intro s t
    constructor
    · intro herr
      by_contra hno
      push_neg at hno
      have hall : ∀ c ∈ (stripSpaces s).data, inLanguage c = true := by
        intro c hc
        cases hb : inLanguage c
        · exact absurd hb (hno c hc)
        · rfl
      obtain ⟨ts, hts⟩ := tokenizeChars_all_ok t ((stripSpaces s).data.length + 1)
        (stripSpaces s).data (by omega) hall
      have htok : tokenize s t =
          tokenizeChars ((stripSpaces s).data.length + 1) (stripSpaces s).data t := rfl
      rw [htok, hts] at herr
      exact Except.noConfusion herr
    · intro hbad
      exact tokenizeChars_bad_err t _ _ (by omega) hbad
  · intro t
    rfl

/-! ## Claim C3 -/

/-- C3: parenthesis balance errors.  For every token sequence, the
resolver fails with `MissingLeftParanthesis` exactly when some right
parenthesis is reached with the index stack empty (the prefix before it
holds no more left than right parentheses), and fails with
`MissingRightParanthesis` exactly when no right parenthesis underflows
but unmatched left parentheses remain after the full scan; in particular
`eval_expression "(A&B"` fails with `MissingRightParanthesis` and
`eval_expression "A&B)"` with `MissingLeftParanthesis`, for every
table. -/
theorem c3_paren_balance :
    (∀ tokens : List ParseItem,
      (get_subexpressions tokens = .error (.missingLeft msgEmptyStack) ↔
        ∃ j, j < tokens.length ∧ tokens[j]? = some ParseItem.rparen ∧
          countL (tokens.take j) ≤ countR (tokens.take j)) ∧
      (get_subexpressions tokens = .error (.missingRight msgUnclosed) ↔
        (∀ j, j < tokens.length → tokens[j]? = some ParseItem.rparen →
          countR (tokens.take j) < countL (tokens.take j)) ∧
        countR tokens < countL tokens)) ∧
    (∀ t : SymbolTable, eval_expression (r"(A&B") t = .error (.missingRight msgUnclosed)) ∧
    (∀ t : SymbolTable, eval_expression (r"A&B)") t = .error (.missingLeft msgEmptyStack)) := by
  refine ⟨fun tokens => ⟨?_, ?_⟩, fun t => rfl, fun t => rfl⟩
  · have h := gsa_missingLeft_iff tokens (tokens.length + 1) 0 [] [] (by omega)
    simpa [get_subexpressions, List.drop_zero] using h
  · have h := gsa_missingRight_iff tokens (tokens.length + 1) 0 [] [] (by omega) (by omega)
    simpa [get_subexpressions, List.drop_zero] using h

/-! ## Claim C4 -/

/-- C4: after the precedence matcher has exhausted all configured tiers,
parsing fails with `InvalidExpression` — carrying the residual working
sequence — exactly when that sequence is not one single Expression node,
and returns that single Expression as the root otherwise.  The
hypotheses name the intermediate stages of `_build_ast`: the recorded
groups, the working sequence `tp` after the splice, and the working
sequence `tp2` after all tiers. -/
theorem c4_end_of_parse_check (fuel : Nat) (tokens : List ParseItem)
    (subs : List (Nat × Nat)) (tp tp2 : List ParseItem)
    (h1 : get_subexpressions tokens = .ok subs)
    (h2 : splice_go fuel tokens
      (((-2 : Int), (-1 : Int)) ::
        (subs.map (fun p => ((p.1 : Int), (p.2 : Int))) ++
          [((tokens.length : Int), (tokens.length : Int) + 1)])) (-2) [] = .ok tp)
    (h3 : runTiers order_of_operations tp = .ok tp2) :
    (build_ast (fuel + 1) tokens = .error (.invalidExpression tp2) ↔
      ∀ e : Expr, tp2 ≠ [.expr e]) ∧
    (∀ e : Expr, tp2 = [.expr e] → build_ast (fuel + 1) tokens = .ok e) := by
  have hb : build_ast (fuel + 1) tokens =
      (match runTiers order_of_operations tp with
       | .error e => .error e
       | .ok l =>
         match l with
         | [ParseItem.expr e] => Except.ok e
         | _ => Except.error (Err.invalidExpression l)) := by
    rw [build_ast, h1]
    dsimp only
    rw [h2]
  rw [h3] at hb
  dsimp only at hb
  rcases tp2 with _ | ⟨x, tl⟩
  · refine ⟨⟨fun _ e he => List.noConfusion he, fun _ => hb⟩, fun e he => List.noConfusion he⟩
  · rcases tl with _ | ⟨y, tl2⟩
    · cases x with
      | lparen =>
        refine ⟨⟨fun _ e he => ?_, fun _ => hb⟩, fun e he => ?_⟩
        · cases he
        · cases he
      | rparen =>
        refine ⟨⟨fun _ e he => ?_, fun _ => hb⟩, fun e he => ?_⟩
        · cases he
        · cases he
      | opTok s =>
        refine ⟨⟨fun _ e he => ?_, fun _ => hb⟩, fun e he => ?_⟩
        · cases he
        · cases he
      | expr e =>
        refine ⟨⟨fun hr e2 he => ?_, fun hne => absurd rfl (hne e)⟩, fun e2 he => ?_⟩
        · rw [hb] at hr
          exact Except.noConfusion hr
        · cases he
          exact hb
    · refine ⟨⟨fun _ e he => ?_, fun _ => hb.trans (by cases x <;> rfl)⟩, fun e he => ?_⟩
      · injection he with hh ht
        exact List.noConfusion ht
      · injection he with hh ht
        exact List.noConfusion ht

/-- Witness for C4's hypotheses: the stages of parsing `"A&B"` against
the empty table, with the working sequence collapsing to the single
conjunction node. -/
theorem c4_witness :
    build_ast 4 [ParseItem.expr (.ident (r"A") []), ParseItem.opTok (r"&"),
        ParseItem.expr (.ident (r"B") [])] =
      .ok (.node .kAnd [.ident (r"A") [], .ident (r"B") []]) := by
  have h := (c4_end_of_parse_check 3
    [ParseItem.expr (.ident (r"A") []), ParseItem.opTok (r"&"), ParseItem.expr (.ident (r"B") [])]
    [] [ParseItem.expr (.ident (r"A") []), ParseItem.opTok (r"&"), ParseItem.expr (.ident (r"B") [])]
    [ParseItem.expr (.node .kAnd [.ident (r"A") [], .ident (r"B") []])]
    rfl rfl rfl).2
  exact h (.node .kAnd [.ident (r"A") [], .ident (r"B") []]) rfl

/-! ## Symbol-table independence for claim C1 -/

/-- The parse stage of `eval_expression` (its first two statements):
tokenize, then build the AST. -/
def parse_expression (input : String) (symbol_table : SymbolTable) : Except Err Expr :=
match tokenize input symbol_table with
| .error e => .error e
| .ok tokens => build_ast ((tokens.length + 2) * (tokens.length + 2)) tokens

mutual

/-- Replace the symbol-table reference stored in every identifier. -/
def retableExpr (t : SymbolTable) : Expr → Expr
| .boolLit s => .boolLit s
| .numLit s => .numLit s
| .ident n _ => .ident n t
| .node k ts => .node k (retableList t ts)

def retableList (t : SymbolTable) : List Expr → List Expr
| [] => []
| e :: es => retableExpr t e :: retableList t es

end

/-- Replace the stored symbol table in a working-sequence element. -/
def retableItem (t : SymbolTable) : ParseItem → ParseItem
| .lparen => .lparen
| .rparen => .rparen
| .opTok s => .opTok s
| .expr e => .expr (retableExpr t e)

/-- Replace the stored symbol table in an error payload (only
`InvalidExpression` carries working-sequence elements). -/
def retableErr (t : SymbolTable) : Err → Err
| .invalidExpression l => .invalidExpression (l.map (retableItem t))
| e => e

/-- Replace the stored symbol table throughout a parse result. -/
def retableRes (t : SymbolTable) : Except Err Expr → Except Err Expr
| .ok e => .ok (retableExpr t e)
| .error e => .error (retableErr t e)

theorem retableList_eq_map (t : SymbolTable) (ts : List Expr) :
    retableList t ts = ts.map (retableExpr t) := by
  induction ts with
  | nil => rfl
  | cons e es ih => rw [retableList, List.map_cons, ih]

theorem returnsOf_retable (t : SymbolTable) (e : Expr) :
    returnsOf (retableExpr t e) = returnsOf e := by
  cases e <;> rfl

theorem itemKey_retable (t : SymbolTable) (x : ParseItem) :
    itemKey (retableItem t x) = itemKey x := by
  cases x with
  | lparen => rfl
  | rparen => rfl
  | opTok s => rfl
  | expr e =>
    show some (MatchKey.ret (returnsOf (retableExpr t e))) = some (MatchKey.ret (returnsOf e))
    rw [returnsOf_retable]

/-- The scanner attaches the given table only inside identifier leaves:
its result for table `t` is the retabling of its result for the empty
table. -/
theorem tokenizeChars_retable (t : SymbolTable) :
    ∀ (fuel : Nat) (rem : List Char),
      tokenizeChars fuel rem t =
        (tokenizeChars fuel rem []).map (List.map (retableItem t)) := by
  intro fuel
  induction fuel with
  | zero =>
    intro rem
    cases rem with
    | nil => rfl
    | cons c rest => rfl
  | succ fuel ih =>
    intro rem
    cases rem with
    | nil => rfl
    | cons c rest =>
      rw [tokenizeChars_succ_cons, tokenizeChars_succ_cons]
      by_cases hl : inLanguage c = true
      · have h1 : ¬ ¬ (inLanguage c = true) := fun h => h hl
        rw [if_neg h1, if_neg h1]
        by_cases hp : isParenChar c = true
        · rw [if_pos hp, if_pos hp]
          rw [ih rest]
          cases tokenizeChars fuel rest [] with
          | error e => rfl
          | ok ts =>
            dsimp only [Except.map]
            rw [List.map_cons]
            by_cases hc : c = '('
            · rw [if_pos hc]
              rfl
            · rw [if_neg hc]
              rfl
        · rw [if_neg hp, if_neg hp]
          by_cases ho : isOpSymbolChar c = true
          · rw [if_pos ho, if_pos ho]
            rw [ih ((c :: rest).drop (opExtend (c :: rest) 0))]
            cases tokenizeChars fuel ((c :: rest).drop (opExtend (c :: rest) 0)) [] with
            | error e => rfl
            | ok ts => rfl
          · rw [if_neg ho, if_neg ho]
            by_cases hbad : (match (c :: rest).drop
                ((c :: rest).takeWhile isAllowedSymbol).length with
                | [] => (false : Bool)
                | d :: _ => ¬ inLanguage d) = true
            · rw [if_pos hbad, if_pos hbad]
              rfl
            · rw [if_neg hbad, if_neg hbad]
              rw [ih ((c :: rest).drop ((c :: rest).takeWhile isAllowedSymbol).length)]
              cases tokenizeChars fuel
                  ((c :: rest).drop ((c :: rest).takeWhile isAllowedSymbol).length) [] with
              | error e => rfl
              | ok ts =>
                dsimp only [Except.map]
                by_cases hb : booleanLiteralAllows
                    (String.mk ((c :: rest).takeWhile isAllowedSymbol)) = true
                · rw [if_pos hb, if_pos hb]
                  rfl
                · rw [if_neg hb, if_neg hb]
                  by_cases hn : numericLiteralAllows
                      (String.mk ((c :: rest).takeWhile isAllowedSymbol)) = true
                  · rw [if_pos hn, if_pos hn]
                    rfl
                  · rw [if_neg hn, if_neg hn]
                    rfl
      · rw [if_pos hl, if_pos hl]
        rfl

/-- The parenthesis scan only inspects constructors, which retabling
preserves. -/
theorem get_sub_aux_retable (t : SymbolTable) (tokens : List ParseItem) :
    ∀ (fuel i : Nat) (st : List Nat) (acc : List (Nat × Nat)),
      get_sub_aux (tokens.map (retableItem t)) fuel i st acc =
        get_sub_aux tokens fuel i st acc := by
  intro fuel
  induction fuel with
  | zero =>
    intro i st acc
    rfl
  | succ fuel ih =>
    intro i st acc
    rw [get_sub_aux_succ, get_sub_aux_succ, List.getElem?_map]
    cases tokens[i]? with
    | none => rfl
    | some tok =>
      cases tok with
      | lparen => exact ih (i + 1) (i :: st) acc
      | rparen =>
        cases st with
        | nil => rfl
        | cons s st2 => exact ih (i + 1) st2 _
      | opTok s => exact ih (i + 1) st acc
      | expr e => exact ih (i + 1) st acc

/-- The trie walk only reads keys, which retabling preserves; collected
targets are retabled, errors are untouched. -/
theorem is_match_retable (t : SymbolTable) (tp : List ParseItem) :
    ∀ (fuel curIdx : Nat) (node : Trie) (targets : List Expr) (et : Option OpKind),
      is_match (tp.map (retableItem t)) fuel curIdx node (targets.map (retableExpr t)) et =
        (match is_match tp fuel curIdx node targets et with
         | .ok .noMatch => .ok .noMatch
         | .ok (.found ts k) => .ok (.found (ts.map (retableExpr t)) k)
         | .error e => .error e) := by
  intro fuel
  induction fuel with
  | zero =>
    intro curIdx node targets et
    rfl
  | succ fuel ih =>
    intro curIdx node targets et
    cases node with
    | mkT cs isEnd =>
      rw [is_match_succ, is_match_succ]
      by_cases he : isEnd = true
      · rw [if_pos he, if_pos he]
        cases et with
        | none => rfl
        | some k => rfl
      · rw [if_neg he, if_neg he, List.getElem?_map]
        cases tp[curIdx]? with
        | none => rfl
        | some item =>
          dsimp only [Option.map]
          rw [itemKey_retable]
          cases itemKey item with
          | none => rfl
          | some key =>
            dsimp only
            cases trieChild key cs with
            | none => rfl
            | some child =>
              dsimp only
              cases item with
              | lparen => rfl
              | rparen => rfl
              | opTok s =>
                show (match TOKEN_TO_CLASS s with
                    | none => Except.error (Err.dictKeyError s)
                    | some k => is_match (tp.map (retableItem t)) fuel (curIdx + 1) child
                        (targets.map (retableExpr t)) (some k)) =
                  (match (match TOKEN_TO_CLASS s with
                      | none => Except.error (Err.dictKeyError s)
                      | some k => is_match tp fuel (curIdx + 1) child targets (some k)) with
                    | Except.ok MatchOutcome.noMatch => Except.ok MatchOutcome.noMatch
                    | Except.ok (MatchOutcome.found ts k) =>
                      Except.ok (MatchOutcome.found (ts.map (retableExpr t)) k)
                    | Except.error e => Except.error e)
                cases TOKEN_TO_CLASS s with
                | none => rfl
                | some k => exact ih (curIdx + 1) child targets (some k)
              | expr e =>
                have hmap : targets.map (retableExpr t) ++ [retableExpr t e]
                    = (targets ++ [e]).map (retableExpr t) := by
                  rw [List.map_append]
                  rfl
                show is_match (tp.map (retableItem t)) fuel (curIdx + 1) child
                    (targets.map (retableExpr t) ++ [retableExpr t e]) et = _
                rw [hmap]
                exact ih (curIdx + 1) child (targets ++ [e]) et

theorem match_scan_succ (trie : Trie) (tp : List ParseItem) (fuel i : Nat) :
    match_scan trie tp (fuel + 1) i =
      (if i < tp.length then
        match is_match tp (tp.length + 1) i trie [] none with
        | .error e => .error e
        | .ok .noMatch => match_scan trie tp fuel (i + 1)
        | .ok (.found targets k) =>
          .ok (some (i, i + (kindExpects k).length, .node k targets))
      else .ok none) := rfl

/-- The left-to-right scan commutes with retabling: spans agree and the
instantiated Expression is retabled. -/
theorem match_scan_retable (t : SymbolTable) (trie : Trie) (tp : List ParseItem) :
    ∀ (fuel i : Nat),
      match_scan trie (tp.map (retableItem t)) fuel i =
        (match match_scan trie tp fuel i with
         | .ok none => .ok none
         | .ok (some (a, b, ex)) => .ok (some (a, b, retableExpr t ex))
         | .error e => .error e) := by
  intro fuel
  induction fuel with
  | zero =>
    intro i
    rfl
  | succ fuel ih =>
    intro i
    rw [match_scan_succ, match_scan_succ, List.length_map]
    by_cases hi : i < tp.length
    · rw [if_pos hi, if_pos hi]
      have him := is_match_retable t tp (tp.length + 1) i trie [] none
      simp only [List.map_nil] at him
      rw [him]
      cases is_match tp (tp.length + 1) i trie [] none with
      | error e => rfl
      | ok m =>
        cases m with
        | noMatch =>
          dsimp only
          exact ih (i + 1)
        | found ts k =>
          dsimp only
          rw [show retableExpr t (.node k ts) = Expr.node k (retableList t ts) from rfl]
          rw [retableList_eq_map]
    · rw [if_neg hi, if_neg hi]

theorem find_match_retable (t : SymbolTable) (tier : List OpKind) (tp : List ParseItem) :
    find_match tier (tp.map (retableItem t)) =
      (match find_match tier tp with
       | .ok none => .ok none
       | .ok (some (a, b, ex)) => .ok (some (a, b, retableExpr t ex))
       | .error e => .error e) := by
  show match_scan (build_trie tier) (tp.map (retableItem t))
      ((tp.map (retableItem t)).length + 1) 0 = _
  rw [List.length_map]
  exact match_scan_retable t (build_trie tier) tp (tp.length + 1) 0

theorem foldTier_succ (fuel : Nat) (tier : List OpKind) (tp : List ParseItem) :
    foldTier (fuel + 1) tier tp =
      (match find_match tier tp with
       | .error e => .error e
       | .ok none => .ok tp
       | .ok (some (i, endIdx, ex)) =>
         foldTier fuel tier (tp.take i ++ [.expr ex] ++ tp.drop endIdx)) := rfl

/-- The per-tier fold loop commutes with retabling. -/
theorem foldTier_retable (t : SymbolTable) :
    ∀ (fuel : Nat) (tier : List OpKind) (tp : List ParseItem),
      foldTier fuel tier (tp.map (retableItem t)) =
        (foldTier fuel tier tp).map (List.map (retableItem t)) := by
  intro fuel
  induction fuel with
  | zero =>
    intro tier tp
    rfl
  | succ fuel ih =>
    intro tier tp
    rw [foldTier_succ, foldTier_succ, find_match_retable]
    cases find_match tier tp with
    | error e => rfl
    | ok o =>
      cases o with
      | none => rfl
      | some trip =>
        obtain ⟨i, endIdx, ex⟩ := trip
        dsimp only
        have hsplit : (tp.map (retableItem t)).take i ++ [ParseItem.expr (retableExpr t ex)]
            ++ (tp.map (retableItem t)).drop endIdx
            = (tp.take i ++ [ParseItem.expr ex] ++ tp.drop endIdx).map (retableItem t) := by
          rw [List.map_append, List.map_append, List.map_take, List.map_drop]
          rfl
        rw [hsplit]
        exact ih tier (tp.take i ++ [.expr ex] ++ tp.drop endIdx)

/-- Step 2 as a whole commutes with retabling. -/
theorem runTiers_retable (t : SymbolTable) :
    ∀ (tiers : List (List OpKind)) (tp : List ParseItem),
      runTiers tiers (tp.map (retableItem t)) =
        (runTiers tiers tp).map (List.map (retableItem t)) := by
  intro tiers
  induction tiers with
  | nil =>
    intro tp
    rfl
  | cons tier rest ih =>
    intro tp
    show (match foldTier ((tp.map (retableItem t)).length + 1) tier (tp.map (retableItem t)) with
      | Except.error e => Except.error e
      | Except.ok tp2 => runTiers rest tp2) =
      Except.map (List.map (retableItem t))
        (match foldTier (tp.length + 1) tier tp with
        | Except.error e => Except.error e
        | Except.ok tp2 => runTiers rest tp2)
    rw [List.length_map, foldTier_retable]
    cases foldTier (tp.length + 1) tier tp with
    | error e => rfl
    | ok tp2 =>
      dsimp only [Except.map]
      exact ih tp2

/-- Errors raised by the trie walk carry no working-sequence payload, so
retabling leaves them unchanged. -/
theorem is_match_err_fix (t : SymbolTable) (tp : List ParseItem) (fuel curIdx : Nat)
    (node : Trie) (targets : List Expr) (et : Option OpKind) (e : Err)
    (h : is_match tp fuel curIdx node targets et = .error e) :
    retableErr t e = e := by
  rw [is_match_eq_walk] at h
  cases hw : walkSpec tp fuel curIdx node with
  | fuelOut =>
    rw [hw] at h
    injection h with h2
    subst h2
    rfl
  | fail =>
    rw [hw] at h
    exact Except.noConfusion h
  | keyErr s =>
    rw [hw] at h
    injection h with h2
    subst h2
    rfl
  | complete span =>
    rw [hw] at h
    dsimp only at h
    cases hlc : lastCatalogOp span et with
    | none =>
      rw [hlc] at h
      injection h with h2
      subst h2
      rfl
    | some k =>
      rw [hlc] at h
      exact Except.noConfusion h

theorem match_scan_err_fix (t : SymbolTable) (trie : Trie) (tp : List ParseItem) :
    ∀ (fuel i : Nat) (e : Err), match_scan trie tp fuel i = .error e →
      retableErr t e = e := by
  intro fuel
  induction fuel with
  | zero =>
    intro i e h
    injection h with h2
    subst h2
    rfl
  | succ fuel ih =>
    intro i e h
    rw [match_scan_succ] at h
    by_cases hi : i < tp.length
    · rw [if_pos hi] at h
      cases him : is_match tp (tp.length + 1) i trie [] none with
      | error e2 =>
        rw [him] at h
        injection h with h2
        subst h2
        exact is_match_err_fix t tp (tp.length + 1) i trie [] none e2 him
      | ok m =>
        rw [him] at h
        cases m with
        | noMatch => exact ih (i + 1) e h
        | found ts k => exact Except.noConfusion h
    · rw [if_neg hi] at h
      exact Except.noConfusion h

theorem find_match_err_fix (t : SymbolTable) (tier : List OpKind) (tp : List ParseItem)
    (e : Err) (h : find_match tier tp = .error e) : retableErr t e = e :=
  match_scan_err_fix t (build_trie tier) tp (tp.length + 1) 0 e h

theorem foldTier_err_fix (t : SymbolTable) (tier : List OpKind) :
    ∀ (fuel : Nat) (tp : List ParseItem) (e : Err),
      foldTier fuel tier tp = .error e → retableErr t e = e := by
  intro fuel
  induction fuel with
  | zero =>
    intro tp e h
    injection h with h2
    subst h2
    rfl
  | succ fuel ih =>
    intro tp e h
    rw [foldTier_succ] at h
    cases hf : find_match tier tp with
    | error e2 =>
      rw [hf] at h
      injection h with h2
      subst h2
      exact find_match_err_fix t tier tp e2 hf
    | ok o =>
      rw [hf] at h
      cases o with
      | none => exact Except.noConfusion h
      | some trip =>
        obtain ⟨i, endIdx, ex⟩ := trip
        exact ih (tp.take i ++ [.expr ex] ++ tp.drop endIdx) e h

theorem runTiers_cons (tier : List OpKind) (rest : List (List OpKind))
    (tp : List ParseItem) :
    runTiers (tier :: rest) tp =
      (match foldTier (tp.length + 1) tier tp with
      | .error e => .error e
      | .ok tp2 => runTiers rest tp2) := rfl

theorem runTiers_err_fix (t : SymbolTable) :
    ∀ (tiers : List (List OpKind)) (tp : List ParseItem) (e : Err),
      runTiers tiers tp = .error e → retableErr t e = e := by
  intro tiers
  induction tiers with
  | nil =>
    intro tp e h
    exact Except.noConfusion h
  | cons tier rest ih =>
    intro tp e h
    rw [runTiers_cons] at h
    cases hf : foldTier (tp.length + 1) tier tp with
    | error e2 =>
      rw [hf] at h
      injection h with h2
      subst h2
      exact foldTier_err_fix t tier (tp.length + 1) tp e2 hf
    | ok tp2 =>
      rw [hf] at h
      exact ih tp2 e h

/-- Errors raised by the parenthesis scan carry no working-sequence
payload either. -/
theorem gsa_err_fix (t : SymbolTable) (tokens : List ParseItem) :
    ∀ (fuel i : Nat) (st : List Nat) (acc : List (Nat × Nat)) (e : Err),
      get_sub_aux tokens fuel i st acc = .error e → retableErr t e = e := by
  intro fuel
  induction fuel with
  | zero =>
    intro i st acc e h
    injection h with h2
    subst h2
    rfl
  | succ fuel ih =>
    intro i st acc e h
    rw [get_sub_aux_succ] at h
    cases htok : tokens[i]? with
    | none =>
      rw [htok] at h
      dsimp only at h
      by_cases hst : st = []
      · rw [if_pos hst] at h
        exact Except.noConfusion h
      · rw [if_neg hst] at h
        injection h with h2
        subst h2
        rfl
    | some tok =>
      rw [htok] at h
      dsimp only at h
      cases tok with
      | lparen => exact ih (i + 1) (i :: st) acc e h
      | rparen =>
        cases st with
        | nil =>
          injection h with h2
          subst h2
          rfl
        | cons s st2 => exact ih (i + 1) st2 _ e h
      | opTok s2 => exact ih (i + 1) st acc e h
      | expr ex => exact ih (i + 1) st acc e h

/-- Errors raised by the tokenizer carry no working-sequence payload. -/
theorem tokenizeChars_err_fix (t table : SymbolTable) :
    ∀ (fuel : Nat) (rem : List Char) (e : Err),
      tokenizeChars fuel rem table = .error e → retableErr t e = e := by
  intro fuel
  induction fuel with
  | zero =>
    intro rem e h
    cases rem with
    | nil => exact Except.noConfusion h
    | cons c rest =>
      injection h with h2
      subst h2
      rfl
  | succ fuel ih =>
    intro rem e h
    cases rem with
    | nil => exact Except.noConfusion h
    | cons c rest =>
      rw [tokenizeChars_succ_cons] at h
      by_cases hl : inLanguage c = true
      · rw [if_neg (fun hh => hh hl)] at h
        by_cases hp : isParenChar c = true
        · rw [if_pos hp] at h
          cases hrec : tokenizeChars fuel rest table with
          | error e2 =>
            rw [hrec] at h
            injection h with h2
            subst h2
            exact ih rest e2 hrec
          | ok ts =>
            rw [hrec] at h
            exact Except.noConfusion h
        · rw [if_neg hp] at h
          by_cases ho : isOpSymbolChar c = true
          · rw [if_pos ho] at h
            cases hrec : tokenizeChars fuel ((c :: rest).drop (opExtend (c :: rest) 0)) table with
            | error e2 =>
              rw [hrec] at h
              injection h with h2
              subst h2
              exact ih _ e2 hrec
            | ok ts =>
              rw [hrec] at h
              exact Except.noConfusion h
          · rw [if_neg ho] at h
            by_cases hbad : (match (c :: rest).drop
                ((c :: rest).takeWhile isAllowedSymbol).length with
                | [] => (false : Bool)
                | d :: _ => ¬ inLanguage d) = true
            · rw [if_pos hbad] at h
              injection h with h2
              subst h2
              rfl
            · rw [if_neg hbad] at h
              cases hrec : tokenizeChars fuel
                  ((c :: rest).drop ((c :: rest).takeWhile isAllowedSymbol).length) table with
              | error e2 =>
                rw [hrec] at h
                injection h with h2
                subst h2
                exact ih _ e2 hrec
              | ok ts =>
                rw [hrec] at h
                exact Except.noConfusion h
      · rw [if_pos hl] at h
        injection h with h2
        subst h2
        rfl

theorem isEmpty_map (f : ParseItem → ParseItem) (l : List ParseItem) :
    (l.map f).isEmpty = l.isEmpty := by
  cases l with
  | nil => rfl
  | cons x xs => rfl

theorem pySlice_map (f : ParseItem → ParseItem) (l : List ParseItem) (a b : Int) :
    pySlice (l.map f) a b = (pySlice l a b).map f := by
  show ((l.map f).take (pyIndexClamp (l.map f).length b)).drop
      (pyIndexClamp (l.map f).length a) = _
  rw [List.length_map, ← List.map_take, ← List.map_drop]
  rfl

theorem get_subexpressions_retable (t : SymbolTable) (tokens : List ParseItem) :
    get_subexpressions (tokens.map (retableItem t)) = get_subexpressions tokens := by
  show get_sub_aux (tokens.map (retableItem t))
      ((tokens.map (retableItem t)).length + 1) 0 [] [] = _
  rw [List.length_map, get_sub_aux_retable]
  rfl

theorem build_ast_succ (fuel : Nat) (tokens : List ParseItem) :
    build_ast (fuel + 1) tokens =
      (match get_subexpressions tokens with
      | .error e => .error e
      | .ok subs =>
        match splice_go fuel tokens
            (((-2 : Int), (-1 : Int)) ::
              (subs.map (fun p => ((p.1 : Int), (p.2 : Int))) ++
                [((tokens.length : Int), (tokens.length : Int) + 1)])) (-2) [] with
        | .error e => .error e
        | .ok tp =>
          match runTiers order_of_operations tp with
          | .error e => .error e
          | .ok tp2 =>
            match tp2 with
            | [.expr e] => .ok e
            | _ => .error (.invalidExpression tp2)) := rfl

/-- Both stages of `_build_ast` commute with retabling: the AST for table
`t` is the retabling of the AST for the empty table, and errors agree up
to retabling of the `InvalidExpression` payload. -/
theorem build_splice_retable (t : SymbolTable) :
    ∀ fuel : Nat,
      (∀ tokens : List ParseItem,
        build_ast fuel (tokens.map (retableItem t)) = retableRes t (build_ast fuel tokens)) ∧
      (∀ (tokens : List ParseItem) (pairs : List (Int × Int)) (i : Int) (acc : List ParseItem),
        splice_go fuel (tokens.map (retableItem t)) pairs i (acc.map (retableItem t)) =
          (match splice_go fuel tokens pairs i acc with
           | .ok l => .ok (l.map (retableItem t))
           | .error e => .error (retableErr t e))) := by
  intro fuel
  induction fuel with
  | zero =>
    constructor
    · intro tokens
      rfl
    · intro tokens pairs i acc
      rfl
  | succ fuel ih =>
    constructor
    · intro tokens
      rw [build_ast_succ, build_ast_succ, get_subexpressions_retable]
      cases hsub : get_subexpressions tokens with
      | error e =>
        dsimp only
        show Except.error e = retableRes t (Except.error e)
        show Except.error e = Except.error (retableErr t e)
        rw [gsa_err_fix t tokens (tokens.length + 1) 0 [] [] e hsub]
      | ok subs =>
        dsimp only
        rw [List.length_map]
        have hsp := ih.2 tokens
          (((-2 : Int), (-1 : Int)) ::
            (subs.map (fun p => ((p.1 : Int), (p.2 : Int))) ++
              [((tokens.length : Int), (tokens.length : Int) + 1)])) (-2) []
        simp only [List.map_nil] at hsp
        rw [hsp]
        cases splice_go fuel tokens
            (((-2 : Int), (-1 : Int)) ::
              (subs.map (fun p => ((p.1 : Int), (p.2 : Int))) ++
                [((tokens.length : Int), (tokens.length : Int) + 1)])) (-2) [] with
        | error e => rfl
        | ok tp =>
          dsimp only
          rw [runTiers_retable]
          cases hrt : runTiers order_of_operations tp with
          | error e =>
            dsimp only [Except.map]
            show Except.error e = retableRes t (Except.error e)
            show Except.error e = Except.error (retableErr t e)
            rw [runTiers_err_fix t order_of_operations tp e hrt]
          | ok tp2 =>
            dsimp only [Except.map]
            cases tp2 with
            | nil => rfl
            | cons x rest =>
              cases rest with
              | nil => cases x <;> rfl
              | cons y rest2 => cases x <;> rfl
    · intro tokens pairs i acc
      cases pairs with
      | nil =>
        rw [splice_go_succ_nil, splice_go_succ_nil]
      | cons p rest =>
        obtain ⟨a, b⟩ := p
        rw [splice_go_succ_cons, splice_go_succ_cons, pySlice_map, pySlice_map,
          isEmpty_map]
        by_cases hemp : (pySlice tokens (a + 1) b).isEmpty = true
        · rw [if_pos hemp, if_pos hemp, ← List.map_append]
          exact ih.2 tokens rest (b + 1) (acc ++ pySlice tokens i a)
        · rw [if_neg hemp, if_neg hemp, ih.1 (pySlice tokens (a + 1) b)]
          cases build_ast fuel (pySlice tokens (a + 1) b) with
          | error e => rfl
          | ok ex =>
            dsimp only [retableRes]
            rw [show acc.map (retableItem t) ++ (pySlice tokens i a).map (retableItem t)
                ++ [ParseItem.expr (retableExpr t ex)]
                = ((acc ++ pySlice tokens i a) ++ [ParseItem.expr ex]).map (retableItem t) from by
              rw [List.map_append, List.map_append]
              rfl]
            exact ih.2 tokens rest (b + 1) ((acc ++ pySlice tokens i a) ++ [.expr ex])

/-- The parse stage with table `t` equals the retabling of the parse
stage with the empty table: the table is never consulted. -/
theorem parse_retable (t : SymbolTable) (s : String) :
    parse_expression s t = retableRes t (parse_expression s []) := by
  show (match tokenize s t with
    | .error e => .error e
    | .ok tokens => build_ast ((tokens.length + 2) * (tokens.length + 2)) tokens)
    = retableRes t (match tokenize s [] with
    | .error e => .error e
    | .ok tokens => build_ast ((tokens.length + 2) * (tokens.length + 2)) tokens)
  have ht : tokenize s t = (tokenize s []).map (List.map (retableItem t)) :=
    tokenizeChars_retable t ((stripSpaces s).data.length + 1) (stripSpaces s).data
  rw [ht]
  cases htk : tokenize s [] with
  | error e =>
    dsimp only [Except.map]
    show Except.error e = Except.error (retableErr t e)
    rw [tokenizeChars_err_fix t [] ((stripSpaces s).data.length + 1) (stripSpaces s).data e htk]
  | ok tokens =>
    dsimp only [Except.map]
    rw [List.length_map]
    exact (build_splice_retable t ((tokens.length + 2) * (tokens.length + 2))).1 tokens

/-- Boolean success test of a parse result. -/
def isOkRes : Except Err Expr → Bool
| .ok _ => true
| .error _ => false

/-- C1: Parsing never consults the symbol table.  For every expression
text and every table, the parse stage (tokenize + `_build_ast`) returns
the retabling of its result for the empty table — in particular it
succeeds or fails, and with which error, independently of which names
the table contains.  `"A&B"` parses successfully for every table, and
with `{A: true}` (`B` absent) the failure surfaces only in the
evaluation step, as the missing-identifier lookup error for `B`. -/
theorem c1_lazy_binding :
    (∀ (s : String) (t : SymbolTable),
        parse_expression s t = retableRes t (parse_expression s [])) ∧
    (∀ (s : String) (t : SymbolTable),
        isOkRes (parse_expression s t) = isOkRes (parse_expression s [])) ∧
    (∀ t : SymbolTable, parse_expression (r"A&B") t =
        .ok (.node .kAnd [.ident (r"A") t, .ident (r"B") t])) ∧
    eval_expression (r"A&B") [((r"A"), Value.bool true)] =
      .error (.keyNotFound (r"B")) := by
  constructor
  · intro s t
    exact parse_retable t s
  constructor
  · intro s t
    rw [parse_retable t s]
    cases parse_expression s [] with
    | ok e => rfl
    | error e => rfl
  constructor
  · intro t
    rfl
  · rfl

/-! ## Claim C2 -/

/-- The table `{A: true, B: true}` used by the C2 example runs. -/
def tableAB : SymbolTable := [(r"A", Value.bool true), (r"B", Value.bool true)]

/-- The input `"A&B"` with a tab character inserted. -/
def tabInput : String := "A\t&B"

/-- C2 counterexample: inserting the whitespace character TAB into
`"A&B"` changes the result of `eval_expression` (the tokenizer removes
only the space character `' '`, and TAB is outside the recognized
alphabet), so whitespace insertion is not invariant as claimed. -/
theorem c2_counterexample :
    eval_expression tabInput tableAB ≠ eval_expression (r"A&B") tableAB := by
  intro h
  have h1 : eval_expression tabInput tableAB = .error .invalidCharacter := rfl
  have h2 : eval_expression (r"A&B") tableAB = .ok (.bool true) := rfl
  rw [h1, h2] at h
  exact Except.noConfusion h

/-- C2 amended: only insertion or removal of the space character `' '`
never changes the result of `eval_expression` — two inputs that agree
after `s.replace(" ", "")` evaluate identically, for every symbol
table. -/
theorem c2_space_invariance (s1 s2 : String) (t : SymbolTable)
    (h : stripSpaces s1 = stripSpaces s2) :
    eval_expression s1 t = eval_expression s2 t := by
  unfold eval_expression tokenize
  rw [h]

/-- Witness for C2's amended statement at the spec's own example pair. -/
theorem c2_witness :
    stripSpaces (r"A&B") = stripSpaces (r" A & B ") ∧
      eval_expression (r"A&B") tableAB = eval_expression (r" A & B ") tableAB :=
  ⟨rfl, c2_space_invariance (r"A&B") (r" A & B ") tableAB rfl⟩

end BoolParser

namespace ParserUtils

/-- The `Result` record of the unused combinator utility
(`parser/utils/parser.py`; its `types/expressions.py` is missing from the
snapshot).  A combinator returns a success flag, a value and the
remaining tokens; `sequence` never reads `value`/`rest` of a failed
result, so totalizing them is behaviour-preserving. -/
structure CombResult (τ β : Type) where
  success : Bool
  value : β
  rest : List τ
deriving DecidableEq

/-- A parser combinator over tokens `τ` producing values of type `β`. -/
abbrev Combinator (τ β : Type) := List τ → CombResult τ β

/-- The result record built by `sequence`: its value field collects one
value per combinator.  The bare `Result(success=False)` of the Python
code leaves value and rest unset; they are totalized to `[]` here and
never observed. -/
structure SeqResult (τ β : Type) where
  success : Bool
  value : List β
  rest : List τ
deriving DecidableEq

/-- The `for combinator in combinators` loop of `sequence`: each
combinator is applied to `tokens` — the list captured at entry — never to
the `rest` produced by the previous combinator; `rest` is merely
overwritten on each success. -/
def seqGo {τ β : Type} : List (Combinator τ β) → List τ → List τ → List β → SeqResult τ β
| [], _, rest, value => ⟨true, value, rest⟩
| c :: cs, tokens, rest, value =>
  let result := c tokens
  if result.success then seqGo cs tokens result.rest (value ++ [result.value])
  else ⟨false, [], []⟩

/-- Embeds `sequence` of `parser/utils/parser.py`. -/
def sequence {τ β : Type} (combinators : List (Combinator τ β)) : List τ → SeqResult τ β :=
fun tokens => seqGo combinators tokens tokens []

/-- The rest left by the last combinator of the list when each is applied
to the original `tokens`, or `dflt` when there is none. -/
def lastRest {τ β : Type} (tokens : List τ) : List (Combinator τ β) → List τ → List τ
| [], dflt => dflt
| c :: cs, _ => lastRest tokens cs ((c tokens).rest)

theorem seqGo_all_success {τ β : Type} (tokens : List τ) :
    ∀ (combs : List (Combinator τ β)) (rest : List τ) (value : List β),
      (∀ c ∈ combs, (c tokens).success = true) →
      seqGo combs tokens rest value =
        ⟨true, value ++ combs.map (fun c => (c tokens).value), lastRest tokens combs rest⟩ := by
  intro combs
  induction combs with
  | nil => intro rest value _; simp [seqGo, lastRest]
  | cons c cs ih =>
    intro rest value h
    have hc : (c tokens).success = true := h c (List.mem_cons_self c cs)
    have hcs : ∀ d ∈ cs, (d tokens).success = true :=
      fun d hd => h d (List.mem_cons_of_mem c hd)
    simp only [seqGo, hc, if_pos]
    rw [ih ((c tokens).rest) (value ++ [(c tokens).value]) hcs]
    simp [lastRest]

/-! ## Claim C10 -/

/-- C10: `sequence` does not thread its remainder.  When every combinator
succeeds on the original token list, each combinator is applied to that
original list (never to the rest left by the previous combinator); the
returned rest is the one produced by the last combinator applied to the
original list, and the returned value collects each combinator's value
taken from the start of the original list, in order. -/
theorem c10_sequence_applies_to_original {τ β : Type}
    (combinators : List (Combinator τ β)) (tokens : List τ)
    (h : ∀ c ∈ combinators, (c tokens).success = true) :
    sequence combinators tokens =
      ⟨true, combinators.map (fun c => (c tokens).value), lastRest tokens combinators tokens⟩ := by
  have hg := seqGo_all_success tokens combinators tokens [] h
  simpa [sequence] using hg

/-- A combinator taking one token off the front. -/
def wComb1 : Combinator Nat (List Nat) := fun ts => ⟨true, ts.take 1, ts.drop 1⟩

/-- A combinator taking two tokens off the front. -/
def wComb2 : Combinator Nat (List Nat) := fun ts => ⟨true, ts.take 2, ts.drop 2⟩

/-- Witness for C10: on `[5, 6, 7]` both combinators succeed; the second
combinator is visibly applied to the original list (its value `[5, 6]`
starts from the front again) and the final rest `[7]` is the last
combinator's rest on the original list. -/
theorem c10_witness :
    sequence [wComb1, wComb2] [5, 6, 7] = ⟨true, [[5], [5, 6]], [7]⟩ := by
  have hsucc : ∀ c ∈ [wComb1, wComb2], (c [5, 6, 7]).success = true := by
    intro c hc
    rcases List.mem_cons.mp hc with h | h
    · rw [h]; rfl
    · rcases List.mem_cons.mp h with h2 | h2
      · rw [h2]; rfl
      · simp at h2
  exact (c10_sequence_applies_to_original [wComb1, wComb2] [5, 6, 7] hsucc).trans rfl

end ParserUtils
